import Mathlib

/-!
Shallow embedding of the tree-api core (TreeService, ZipperService,
TraversalService, ContextBuilder) and verification of its specification.

Python dicts are embedded as association lists (`List (String × key)`), with
`lookupA` / `setA` / `eraseA` / `modifyA` mirroring `d[k]`, `d[k] = v`,
`del d[k]` and in-place mutation of a stored value.  The wall clock
(`datetime.now()`) is passed in explicitly as a `Nat` argument `now`.
Exceptions are embedded as `Except TreeError`; every mutating operation
returns the (possibly mutated) state alongside the result, so a raise that
happens after a mutation keeps the mutation, exactly as in the source.
Unbounded `while` loops and recursion over the parent chain are embedded
with an explicit fuel argument, always instantiated with more fuel than the
number of stored nodes; on well-formed states the fuel never runs out.
-/

namespace TreeApi

/-- `d.get(k)` / `k in d` on a Python dict, embedded over an association list. -/
def lookupA {α : Type} : List (String × α) → String → Option α
  | [], _ => none
  | (k1, v) :: rest, k => if k1 = k then some v else lookupA rest k

/-- `d[k] = v`: replace in place if the key is present, else append. -/
def setA {α : Type} : List (String × α) → String → α → List (String × α)
  | [], k, v => [(k, v)]
  | (k1, v1) :: rest, k, v =>
    if k1 = k then (k1, v) :: rest else (k1, v1) :: setA rest k v

/-- `del d[k]`: remove the entry for `k` (first occurrence). -/
def eraseA {α : Type} : List (String × α) → String → List (String × α)
  | [], _ => []
  | (k1, v1) :: rest, k => if k1 = k then rest else (k1, v1) :: eraseA rest k

/-- In-place mutation of the value stored under `k` (no-op if absent). -/
def modifyA {α : Type} : List (String × α) → String → (α → α) → List (String × α)
  | [], _, _ => []
  | (k1, v1) :: rest, k, f =>
    if k1 = k then (k1, f v1) :: rest else (k1, v1) :: modifyA rest k f

/-- `k in d`. -/
def hasKey {α : Type} (l : List (String × α)) (k : String) : Bool :=
  (lookupA l k).isSome

/-- Key list of an association list. -/
def keysA {α : Type} (l : List (String × α)) : List String :=
  l.map (·.1)

/-- Node metadata: an open string-keyed map, opaque to the core. -/
abbrev Metadata : Type := List (String × String)

/-- The `Node` pydantic model (`src/tree/models/node.py`). -/
structure Node where
  id : String
  parent_id : Option String
  description : String
  metadata : Metadata
  is_leaf : Bool
  created_at : Nat
  updated_at : Nat
deriving DecidableEq, Repr

/-- The three exception classes of `src/tree/services/tree.py`. -/
inductive TreeError where
  | treeNotFound (msg : String)
  | circularReference (msg : String)
  | invalidOperation (msg : String)
deriving DecidableEq, Repr

instance {ε α : Type} [DecidableEq ε] [DecidableEq α] : DecidableEq (Except ε α) := by
  intro a b
  cases a with
  | error e1 =>
    cases b with
    | error e2 =>
      exact if h : e1 = e2 then .isTrue (by rw [h])
        else .isFalse (by intro hh; cases hh; exact h rfl)
    | ok x2 => exact .isFalse (by intro hh; cases hh)
  | ok x1 =>
    cases b with
    | error e2 => exact .isFalse (by intro hh; cases hh)
    | ok x2 =>
      exact if h : x1 = x2 then .isTrue (by rw [h])
        else .isFalse (by intro hh; cases hh; exact h rfl)

/-- The mutable state of `TreeService`: `_nodes`, `_children`, `_root_id`. -/
structure TreeState where
  nodes : List (String × Node)
  children : List (String × List String)
  root_id : Option String
deriving DecidableEq, Repr

/-- `TreeService.__init__`. -/
def initState : TreeState := ⟨[], [], none⟩

/-- The children index entry for a node: `self._children.get(node_id, [])`. -/
def childList (s : TreeState) (k : String) : List String :=
  (lookupA s.children k).getD []

/-- Python truthiness of an optional id (`if node.parent_id:`):
`None` and the empty string are falsy. -/
def truthy : Option String → Bool
  | none => false
  | some x => x ≠ ""

/-- `TreeService.create_node`.  Mirrors the source exactly: the node is
inserted into `_nodes` and `_children` before the root-uniqueness check, so
a failed second-root creation leaves the freshly inserted node behind. -/
def create_node (s : TreeState) (node_id : String) (description : String)
    (parent_id : Option String) (metadata : Metadata) (now : Nat) :
    Except TreeError Node × TreeState :=
  if hasKey s.nodes node_id then
    (.error (.invalidOperation ("Node " ++ node_id ++ " already exists")), s)
  else if parent_id.isSome && !hasKey s.nodes (parent_id.getD "") then
    (.error (.treeNotFound ("Parent node " ++ parent_id.getD "" ++ " not found")), s)
  else
    let node : Node := ⟨node_id, parent_id, description, metadata, true, now, now⟩
    let nodes1 := setA s.nodes node_id node
    let children1 := setA s.children node_id []
    match parent_id with
    | none =>
      if s.root_id.isSome then
        (.error (.invalidOperation "Root node already exists"),
          ⟨nodes1, children1, s.root_id⟩)
      else
        (.ok node, ⟨nodes1, children1, some node_id⟩)
    | some pid =>
      let children2 := modifyA children1 pid (fun l => l ++ [node_id])
      let nodes2 :=
        match lookupA nodes1 pid with
        | some parent =>
          setA nodes1 pid { parent with is_leaf := false, updated_at := now }
        | none => nodes1
      (.ok node, ⟨nodes2, children2, s.root_id⟩)

/-- `TreeService.get_node`. -/
def get_node (s : TreeState) (node_id : String) : Except TreeError Node :=
  match lookupA s.nodes node_id with
  | none => .error (.treeNotFound ("Node " ++ node_id ++ " not found"))
  | some n => .ok n

/-- `TreeService.update_node`. -/
def update_node (s : TreeState) (node_id : String) (description : Option String)
    (metadata : Option Metadata) (now : Nat) : Except TreeError Node × TreeState :=
  match get_node s node_id with
  | .error e => (.error e, s)
  | .ok node =>
    let node1 := { node with updated_at := now }
    let node2 :=
      match description with
      | some d => { node1 with description := d }
      | none => node1
    let node3 :=
      match metadata with
      | some m => { node2 with metadata := m }
      | none => node2
    (.ok node3, { s with nodes := setA s.nodes node_id node3 })

mutual

/-- `TreeService.delete_node`, with explicit fuel for the recursion. -/
def delete_go (fuel : Nat) (s : TreeState) (node_id : String) (now : Nat) :
    Except TreeError Unit × TreeState :=
  match fuel with
  | 0 => (.error (.invalidOperation "recursion fuel exhausted"), s)
  | fuel + 1 =>
    match get_node s node_id with
    | .error e => (.error e, s)
    | .ok node =>
      if s.root_id = some node_id then
        (.error (.invalidOperation "Cannot delete root node"), s)
      else
        match delete_list fuel s (childList s node_id) now with
        | (.error e, s1) => (.error e, s1)
        | (.ok _, s1) =>
          let s2 :=
            if truthy node.parent_id then
              let pid := node.parent_id.getD ""
              let pcs := (childList s1 pid).erase node_id
              let s1a := { s1 with children := modifyA s1.children pid (·.erase node_id) }
              if pcs = [] then
                match lookupA s1a.nodes pid with
                | some parent =>
                  { s1a with
                      nodes := setA s1a.nodes pid
                        { parent with is_leaf := true, updated_at := now } }
                | none => s1a
              else s1a
            else s1
          (.ok (), { s2 with nodes := eraseA s2.nodes node_id,
                             children := eraseA s2.children node_id })
termination_by (fuel, 0)

/-- The `for child_id in list(...)` loop inside `delete_node`. -/
def delete_list (fuel : Nat) (s : TreeState) (ids : List String) (now : Nat) :
    Except TreeError Unit × TreeState :=
  match ids with
  | [] => (.ok (), s)
  | c :: cs =>
    match delete_go fuel s c now with
    | (.error e, s1) => (.error e, s1)
    | (.ok _, s1) => delete_list fuel s1 cs now
termination_by (fuel, ids.length + 1)

end

/-- `TreeService.delete_node` entry point: fuel bounded by the store size. -/
def delete_node (s : TreeState) (node_id : String) (now : Nat) :
    Except TreeError Unit × TreeState :=
  delete_go (s.nodes.length + 1) s node_id now

/-- `TreeService.get_children`.  On a well-formed state every stored child id
resolves, so the `filterMap` drops nothing. -/
def get_children (s : TreeState) (node_id : String) : Except TreeError (List Node) :=
  match get_node s node_id with
  | .error e => .error e
  | .ok _ => .ok ((childList s node_id).filterMap (fun c => lookupA s.nodes c))

/-- `TreeService.get_siblings`. -/
def get_siblings (s : TreeState) (node_id : String) : Except TreeError (List Node) :=
  match get_node s node_id with
  | .error e => .error e
  | .ok node =>
    match node.parent_id with
    | none => .ok [node]
    | some pid => get_children s pid

/-- `TreeService.get_parent`.  A dangling `parent_id` (impossible on a
well-formed state) is embedded as an error, standing for the `KeyError` the
source would raise. -/
def get_parent (s : TreeState) (node_id : String) : Except TreeError (Option Node) :=
  match get_node s node_id with
  | .error e => .error e
  | .ok node =>
    match node.parent_id with
    | none => .ok none
    | some pid =>
      match lookupA s.nodes pid with
      | some p => .ok (some p)
      | none => .error (.treeNotFound ("Node " ++ pid ++ " not found"))

/-- The `while` loop of `TreeService._would_create_cycle`: walk the parent
chain starting at `current`, looking for `node_id`.  Fuel exhaustion (which
in the source would be an infinite loop, only possible on a cyclic store) is
reported as a cycle. -/
def cycle_walk (s : TreeState) (node_id : String) :
    Nat → Option String → Bool
  | _, none => false
  | 0, some _ => true
  | fuel + 1, some c =>
    if c = node_id then true
    else
      cycle_walk s node_id fuel
        (match lookupA s.nodes c with
         | some n => n.parent_id
         | none => none)

/-- `TreeService._would_create_cycle`. -/
def would_create_cycle (s : TreeState) (node_id new_parent_id : String) : Bool :=
  cycle_walk s node_id (s.nodes.length + 1) (some new_parent_id)

/-- `TreeService.move_node`. -/
def move_node (s : TreeState) (node_id new_parent_id : String) (now : Nat) :
    Except TreeError Node × TreeState :=
  match get_node s node_id with
  | .error e => (.error e, s)
  | .ok node =>
    if s.root_id = some node_id then
      (.error (.invalidOperation "Cannot move root node"), s)
    else if !hasKey s.nodes new_parent_id then
      (.error (.treeNotFound ("New parent " ++ new_parent_id ++ " not found")), s)
    else if would_create_cycle s node_id new_parent_id then
      (.error (.circularReference
        ("Moving " ++ node_id ++ " to " ++ new_parent_id ++ " would create a cycle")), s)
    else
      let s1 :=
        if truthy node.parent_id then
          let opid := node.parent_id.getD ""
          let pcs := (childList s opid).erase node_id
          let sa := { s with children := modifyA s.children opid (·.erase node_id) }
          if pcs = [] then
            match lookupA sa.nodes opid with
            | some old_parent =>
              { sa with
                  nodes := setA sa.nodes opid
                    { old_parent with is_leaf := true, updated_at := now } }
            | none => sa
          else sa
        else s
      let s2 := { s1 with children := modifyA s1.children new_parent_id (fun l => l ++ [node_id]) }
      let s3 :=
        match lookupA s2.nodes new_parent_id with
        | some new_parent =>
          { s2 with
              nodes := setA s2.nodes new_parent_id
                { new_parent with is_leaf := false, updated_at := now } }
        | none => s2
      let updated := { node with parent_id := some new_parent_id, updated_at := now }
      (.ok updated, { s3 with nodes := setA s3.nodes node_id updated })

/-- `TreeService.get_root`. -/
def get_root (s : TreeState) : Option Node :=
  match s.root_id with
  | none => none
  | some r => lookupA s.nodes r

/-- `TreeService.node_count`. -/
def node_count (s : TreeState) : Nat :=
  s.nodes.length

/-- The search `next(i for i, s in enumerate(siblings) if s.id == node_id)`
with its `StopIteration` handler: the first index whose node has the given
id, or `none`. -/
def find_index (siblings : List Node) (node_id : String) : Option Nat :=
  match siblings with
  | [] => none
  | n :: rest =>
    if n.id = node_id then some 0
    else (find_index rest node_id).map (· + 1)

/-- `ZipperService.up`. -/
def zipper_up (s : TreeState) (node_id : String) : Except TreeError (Option Node) :=
  get_parent s node_id

/-- `ZipperService.down`. -/
def zipper_down (s : TreeState) (node_id : String) : Except TreeError (Option Node) :=
  match get_children s node_id with
  | .error e => .error e
  | .ok children => .ok children.head?

/-- `ZipperService.left`. -/
def zipper_left (s : TreeState) (node_id : String) : Except TreeError (Option Node) :=
  match get_node s node_id with
  | .error e => .error e
  | .ok node =>
    match node.parent_id with
    | none => .ok none
    | some _ =>
      match get_siblings s node_id with
      | .error e => .error e
      | .ok siblings =>
        match find_index siblings node_id with
        | none => .ok none
        | some i =>
          if i = 0 then .ok none
          else .ok (siblings.get? (i - 1))

/-- `ZipperService.right`. -/
def zipper_right (s : TreeState) (node_id : String) : Except TreeError (Option Node) :=
  match get_node s node_id with
  | .error e => .error e
  | .ok node =>
    match node.parent_id with
    | none => .ok none
    | some _ =>
      match get_siblings s node_id with
      | .error e => .error e
      | .ok siblings =>
        match find_index siblings node_id with
        | none => .ok none
        | some i =>
          if i = siblings.length - 1 then .ok none
          else .ok (siblings.get? (i + 1))

/-- The `for child_id, description, metadata in children_data` loop of
`ZipperService.expand`: children are created one at a time; a failure aborts
the loop but keeps the children already created. -/
def expand_loop (node_id : String) (now : Nat) :
    TreeState → List (String × String × Metadata) → Except TreeError Unit × TreeState
  | s, [] => (.ok (), s)
  | s, (cid, desc, md) :: rest =>
    match create_node s cid desc (some node_id) md now with
    | (.error e, s1) => (.error e, s1)
    | (.ok _, s1) => expand_loop node_id now s1 rest

/-- `ZipperService.expand`. -/
def expand (s : TreeState) (node_id : String)
    (children_data : List (String × String × Metadata)) (now : Nat) :
    Except TreeError Node × TreeState :=
  match get_node s node_id with
  | .error e => (.error e, s)
  | .ok node =>
    if !node.is_leaf then
      (.error (.invalidOperation ("Node " ++ node_id ++ " is not a leaf, cannot expand")), s)
    else
      match expand_loop node_id now s children_data with
      | (.error e, s1) => (.error e, s1)
      | (.ok _, s1) =>
        match get_node s1 node_id with
        | .error e => (.error e, s1)
        | .ok n => (.ok n, s1)

/-- The `for child in children` loop of `ZipperService.collapse`, deleting
each direct child through `TreeService.delete_node`. -/
def collapse_loop (now : Nat) :
    TreeState → List String → Except TreeError Unit × TreeState
  | s, [] => (.ok (), s)
  | s, c :: cs =>
    match delete_node s c now with
    | (.error e, s1) => (.error e, s1)
    | (.ok _, s1) => collapse_loop now s1 cs

/-- `ZipperService.collapse`. -/
def collapse (s : TreeState) (node_id : String) (summary : Option String) (now : Nat) :
    Except TreeError Node × TreeState :=
  match get_node s node_id with
  | .error e => (.error e, s)
  | .ok node =>
    if node.is_leaf then
      (.error (.invalidOperation ("Node " ++ node_id ++ " is already a leaf, cannot collapse")), s)
    else
      match get_children s node_id with
      | .error e => (.error e, s)
      | .ok children =>
        match collapse_loop now s (children.map (·.id)) with
        | (.error e, s1) => (.error e, s1)
        | (.ok _, s1) =>
          match summary with
          | some sm => update_node s1 node_id (some sm) none now
          | none =>
            match get_node s1 node_id with
            | .error e => (.error e, s1)
            | .ok n => (.ok n, s1)

/-- The `while current.parent_id is not None` loop of
`TraversalService.compute_next_dfs`: climb through the ancestors, returning
the first next-sibling found. -/
def next_dfs_up (s : TreeState) :
    Nat → Node → Except TreeError (Option Node)
  | 0, _ => .ok none
  | fuel + 1, current =>
    match current.parent_id with
    | none => .ok none
    | some _ =>
      match get_parent s current.id with
      | .error e => .error e
      | .ok none => .ok none
      | .ok (some parent) =>
        match get_siblings s parent.id with
        | .error e => .error e
        | .ok parent_siblings =>
          match find_index parent_siblings parent.id with
          | some i =>
            if i + 1 < parent_siblings.length then
              .ok (parent_siblings.get? (i + 1))
            else next_dfs_up s fuel parent
          | none => next_dfs_up s fuel parent

/-- `TraversalService.compute_next_dfs`. -/
def compute_next_dfs (s : TreeState) (node_id : String) :
    Except TreeError (Option Node) :=
  match get_node s node_id with
  | .error e => .error e
  | .ok node =>
    match get_children s node_id with
    | .error e => .error e
    | .ok children =>
      match children.head? with
      | some c => .ok (some c)
      | none =>
        match node.parent_id with
        | some _ =>
          match get_siblings s node_id with
          | .error e => .error e
          | .ok siblings =>
            match find_index siblings node_id with
            | some i =>
              if i + 1 < siblings.length then
                .ok (siblings.get? (i + 1))
              else next_dfs_up s (s.nodes.length + 1) node
            | none => next_dfs_up s (s.nodes.length + 1) node
        | none => next_dfs_up s (s.nodes.length + 1) node

/-- The `while not current.is_leaf` loop of
`TraversalService._rightmost_descendant`. -/
def rightmost_go (s : TreeState) :
    Nat → Node → Except TreeError Node
  | 0, current => .ok current
  | fuel + 1, current =>
    if current.is_leaf then .ok current
    else
      match get_children s current.id with
      | .error e => .error e
      | .ok children =>
        match children.getLast? with
        | none => .ok current
        | some lastc => rightmost_go s fuel lastc

/-- `TraversalService._rightmost_descendant`. -/
def rightmost_descendant (s : TreeState) (node_id : String) : Except TreeError Node :=
  match get_node s node_id with
  | .error e => .error e
  | .ok n => rightmost_go s (s.nodes.length + 1) n

/-- `TraversalService.compute_prev_dfs`. -/
def compute_prev_dfs (s : TreeState) (node_id : String) :
    Except TreeError (Option Node) :=
  match get_node s node_id with
  | .error e => .error e
  | .ok node =>
    match node.parent_id with
    | none => .ok none
    | some _ =>
      match get_siblings s node_id with
      | .error e => .error e
      | .ok siblings =>
        match find_index siblings node_id with
        | none => .ok none
        | some i =>
          if 0 < i then
            match siblings.get? (i - 1) with
            | none => .ok none
            | some left_sibling =>
              match rightmost_descendant s left_sibling.id with
              | .error e => .error e
              | .ok n => .ok (some n)
          else
            match get_parent s node_id with
            | .error e => .error e
            | .ok p => .ok p

/-- The queue loop of `TraversalService.compute_next_bfs`. -/
def next_bfs_go (s : TreeState) (node_id : String) :
    Nat → List Node → Bool → Except TreeError (Option Node)
  | 0, _, _ => .ok none
  | _ + 1, [], _ => .ok none
  | fuel + 1, current :: rest, found_current =>
    if found_current then .ok (some current)
    else
      match get_children s current.id with
      | .error e => .error e
      | .ok children =>
        next_bfs_go s node_id fuel (rest ++ children) (found_current || (current.id = node_id))

/-- `TraversalService.compute_next_bfs`.  Note that the target id is never
looked up: an absent id simply exhausts the queue and yields `none`. -/
def compute_next_bfs (s : TreeState) (node_id : String) :
    Except TreeError (Option Node) :=
  match get_root s with
  | none => .ok none
  | some root => next_bfs_go s node_id (s.nodes.length + 1) [root] false

/-- A breadcrumb record (`src/tree/models/context.py`). -/
structure Breadcrumb where
  id : String
  description : String
deriving DecidableEq, Repr

/-- The `Context` model (`src/tree/models/context.py`). -/
structure Context where
  depth : Nat
  sibling_position : Nat
  total_siblings : Nat
  has_children : Bool
  children_count : Nat
  breadcrumbs : List Breadcrumb
deriving DecidableEq, Repr

/-- The `while current_id is not None` loop of
`ContextBuilder._compute_breadcrumbs`, with `breadcrumbs.insert(0, ...)`
embedded as consing onto the accumulator while walking up. -/
def breadcrumbs_go (s : TreeState) :
    Nat → Option String → List Breadcrumb → Except TreeError (List Breadcrumb)
  | 0, _, acc => .ok acc
  | _ + 1, none, acc => .ok acc
  | fuel + 1, some cid, acc =>
    match get_node s cid with
    | .error e => .error e
    | .ok parent =>
      breadcrumbs_go s fuel parent.parent_id (⟨parent.id, parent.description⟩ :: acc)

/-- `ContextBuilder._compute_breadcrumbs`. -/
def compute_breadcrumbs (s : TreeState) (node : Node) :
    Except TreeError (List Breadcrumb) :=
  breadcrumbs_go s (s.nodes.length + 1) node.parent_id []

/-- `ContextBuilder.build_context`.  The bare `next(...)` of the source
(which would raise `StopIteration` if the node were missing from its own
sibling list) is embedded as an error on that unreachable path. -/
def build_context (s : TreeState) (node_id : String) : Except TreeError Context :=
  match get_node s node_id with
  | .error e => .error e
  | .ok node =>
    match compute_breadcrumbs s node with
    | .error e => .error e
    | .ok breadcrumbs =>
      match get_siblings s node_id with
      | .error e => .error e
      | .ok siblings =>
        match get_children s node_id with
        | .error e => .error e
        | .ok children =>
          match find_index siblings node_id with
          | none => .error (.treeNotFound ("Node " ++ node_id ++ " not among its siblings"))
          | some sibling_position =>
            .ok ⟨breadcrumbs.length, sibling_position, siblings.length,
                 !node.is_leaf, children.length, breadcrumbs⟩

/-- Boolean no-duplicates check on a key list. -/
def nodupB : List String → Bool
  | [] => true
  | k :: rest => !(rest.contains k) && nodupB rest

/-- Check that the parent chain starting at the given id reaches a parentless
node within `fuel` lookups. -/
def reaches_root (s : TreeState) : Nat → Option String → Bool
  | _, none => true
  | 0, some _ => false
  | fuel + 1, some k =>
    match lookupA s.nodes k with
    | none => false
    | some n => reaches_root s fuel n.parent_id

/-- Both key lists are duplicate-free and identical (invariant of
`_nodes` / `_children`, which are always updated together). -/
def wf_keys (s : TreeState) : Bool :=
  nodupB (keysA s.nodes) && (keysA s.children == keysA s.nodes)

/-- Each stored node records its own key as `id`, keys are non-empty. -/
def wf_ids (s : TreeState) : Bool :=
  s.nodes.all (fun e => e.2.id == e.1 && !(e.1 == ""))

/-- Every `parent_id` names an existing node. -/
def wf_parent (s : TreeState) : Bool :=
  s.nodes.all (fun e =>
    match e.2.parent_id with
    | none => true
    | some p => hasKey s.nodes p)

/-- Every child listed in the adjacency exists and points back to its parent;
children lists hold no duplicates. -/
def wf_childparent (s : TreeState) : Bool :=
  s.children.all (fun e =>
    nodupB e.2 && e.2.all (fun c =>
      match lookupA s.nodes c with
      | some n => n.parent_id == some e.1
      | none => false))

/-- Every parented node appears in its parent's children list. -/
def wf_parentchild (s : TreeState) : Bool :=
  s.nodes.all (fun e =>
    match e.2.parent_id with
    | none => true
    | some p => (childList s p).contains e.1)

/-- A node is parentless exactly when it is the recorded root, and the
recorded root exists. -/
def wf_root (s : TreeState) : Bool :=
  s.nodes.all (fun e => e.2.parent_id.isNone == (s.root_id == some e.1)) &&
  (match s.root_id with
   | none => true
   | some r => hasKey s.nodes r)

/-- `is_leaf` is true exactly when the children list is empty. -/
def wf_leaf (s : TreeState) : Bool :=
  s.nodes.all (fun e => e.2.is_leaf == (childList s e.1).isEmpty)

/-- Acyclicity: every parent chain reaches the root within `|nodes|` steps. -/
def wf_acyclic (s : TreeState) : Bool :=
  s.nodes.all (fun e => reaches_root s s.nodes.length (some e.1))

/-- Full well-formedness check for a tree state. -/
def wfB (s : TreeState) : Bool :=
  wf_keys s && wf_ids s && wf_parent s && wf_childparent s &&
  wf_parentchild s && wf_root s && wf_leaf s && wf_acyclic s

/-- Well-formedness of a tree state, as a proposition. -/
def WF (s : TreeState) : Prop := wfB s = true

/-- The parent chain from `k` reaches the root in exactly `d` steps
(`d` = number of proper ancestors of `k`). -/
inductive UpPath (s : TreeState) : String → Nat → Prop where
  | root (k : String) (n : Node) :
      lookupA s.nodes k = some n → n.parent_id = none → UpPath s k 0
  | step (k : String) (n : Node) (p : String) (d : Nat) :
      lookupA s.nodes k = some n → n.parent_id = some p → UpPath s p d →
      UpPath s k (d + 1)

/-- `t` lies on the ancestor-or-self chain of `k`. -/
inductive UpReach (s : TreeState) : String → String → Prop where
  | refl (k : String) : UpReach s k k
  | step (k : String) (n : Node) (p t : String) :
      lookupA s.nodes k = some n → n.parent_id = some p → UpReach s p t →
      UpReach s k t

/-- `c` lies in the subtree rooted at `x` (descendant-or-self, following the
children index downward). -/
inductive InSubtree (s : TreeState) (x : String) : String → Prop where
  | refl : InSubtree s x x
  | child (p c : String) : InSubtree s x p → c ∈ childList s p → InSubtree s x c

/-- `create_node`, keeping only the state (used to build concrete trees). -/
def addNode (s : TreeState) (node_id description : String)
    (parent_id : Option String) (now : Nat) : TreeState :=
  (create_node s node_id description parent_id [] now).2

/-- A one-node tree holding only the root `a`. -/
def st_a : TreeState := addNode initState "a" "first" none 0

/-- The specification's sample tree `root → (a → (a1, a2), b → (b1))`. -/
def sampleState : TreeState :=
  addNode (addNode (addNode (addNode (addNode (addNode initState
    "root" "Root" none 0)
    "a" "A" (some "root") 1)
    "a1" "A1" (some "a") 2)
    "a2" "A2" (some "a") 3)
    "b" "B" (some "root") 4)
    "b1" "B1" (some "b") 5

/-- A three-node chain `r → a → b`. -/
def chainState : TreeState :=
  addNode (addNode (addNode initState "r" "R" none 0)
    "a" "A" (some "r") 1)
    "b" "B" (some "a") 2

/-- The leaf/children coherence invariant (spec: `is_leaf(n)` iff `children(n)`
is empty). -/
def LeafInv (s : TreeState) : Prop :=
  ∀ k n, lookupA s.nodes k = some n → (n.is_leaf = true ↔ childList s k = [])

/-- `_nodes` and `_children` always hold the same keys. -/
def KeysEq (s : TreeState) : Prop := keysA s.children = keysA s.nodes

/-- The part of well-formedness preserved by every operation and needed to
push the leaf invariant through recursive deletion. -/
def StoreInv (s : TreeState) : Prop :=
  (keysA s.nodes).Nodup ∧ KeysEq s ∧ LeafInv s

/-- The parent pointer of a stored node (spec-side helper for the traversal
claims). -/
def parent_of (s : TreeState) (k : String) : Option String :=
  (lookupA s.nodes k).bind (fun n => n.parent_id)

/-- The element following the first occurrence of `x` in a list (spec-side:
"the next sibling in the parent's child order"). -/
def next_after : List String → String → Option String
  | [], _ => none
  | a :: rest, x => if a = x then rest.head? else next_after rest x

/-- The next sibling of `k` in its parent's child order; absent for the
root (spec-side). -/
def spec_next_sibling (s : TreeState) (k : String) : Option String :=
  match parent_of s k with
  | none => none
  | some p => next_after (childList s p) k

/-- The claim's ancestor walk: climb through the ancestors of `k`, returning
the first ancestor's next sibling, absent when the root is reached. -/
def spec_anc_walk (s : TreeState) : Nat → String → Option String
  | 0, _ => none
  | fuel + 1, k =>
    match parent_of s k with
    | none => none
    | some p =>
      match spec_next_sibling s p with
      | some t => some t
      | none => spec_anc_walk s fuel p

/-- The claim's description of `nextDfs`: (a) first child; else (b) next
sibling; else (c) the ancestor walk. -/
def next_dfs_spec (s : TreeState) (k : String) : Option String :=
  match childList s k with
  | c :: _ => some c
  | [] =>
    match spec_next_sibling s k with
    | some t => some t
    | none => spec_anc_walk s (s.nodes.length + 1) k

/-- `Trail s k l`: `l` lists the records of the proper ancestors of `k`,
ordered from the root down to `k`'s parent, excluding `k` itself. -/
inductive Trail (s : TreeState) : String → List Breadcrumb → Prop where
  | root (k : String) (n : Node) :
      lookupA s.nodes k = some n → n.parent_id = none → Trail s k []
  | step (k : String) (n : Node) (p : String) (pn : Node) (l : List Breadcrumb) :
      lookupA s.nodes k = some n → n.parent_id = some p →
      lookupA s.nodes p = some pn → Trail s p l →
      Trail s k (l ++ [⟨pn.id, pn.description⟩])

/-! ## Theorems -/

/-! ### Association-list lemmas -/

theorem lookupA_setA_self {α : Type} (l : List (String × α)) (k : String) (v : α) :
    lookupA (setA l k v) k = some v := by
  induction l with
  | nil => simp [setA, lookupA]
  | cons hd tl ih =>
    obtain ⟨k1, v1⟩ := hd
    by_cases h : k1 = k
    · simp [setA, h, lookupA]
    · simp [setA, h, lookupA, ih]

theorem lookupA_setA_ne {α : Type} (l : List (String × α)) (k k' : String) (v : α)
    (h : k' ≠ k) : lookupA (setA l k v) k' = lookupA l k' := by
  induction l with
  | nil => simp [setA, lookupA, if_neg (Ne.symm h)]
  | cons hd tl ih =>
    obtain ⟨k1, v1⟩ := hd
    by_cases h1 : k1 = k
    · subst h1
      simp [setA, lookupA, if_neg (Ne.symm h)]
    · simp only [setA, if_neg h1, lookupA]
      by_cases h2 : k1 = k'
      · simp [h2]
      · simp [h2, ih]

theorem lookupA_eraseA_ne {α : Type} (l : List (String × α)) (k k' : String)
    (h : k' ≠ k) : lookupA (eraseA l k) k' = lookupA l k' := by
  induction l with
  | nil => simp [eraseA]
  | cons hd tl ih =>
    obtain ⟨k1, v1⟩ := hd
    by_cases h1 : k1 = k
    · subst h1
      simp [eraseA, lookupA, if_neg (Ne.symm h)]
    · simp only [eraseA, if_neg h1, lookupA]
      by_cases h2 : k1 = k'
      · simp [h2]
      · simp [h2, ih]

theorem lookupA_modifyA_self {α : Type} (l : List (String × α)) (k : String) (f : α → α) :
    lookupA (modifyA l k f) k = (lookupA l k).map f := by
  induction l with
  | nil => simp [modifyA, lookupA]
  | cons hd tl ih =>
    obtain ⟨k1, v1⟩ := hd
    by_cases h : k1 = k
    · simp [modifyA, h, lookupA]
    · simp [modifyA, h, lookupA, ih]

theorem lookupA_modifyA_ne {α : Type} (l : List (String × α)) (k k' : String) (f : α → α)
    (h : k' ≠ k) : lookupA (modifyA l k f) k' = lookupA l k' := by
  induction l with
  | nil => simp [modifyA]
  | cons hd tl ih =>
    obtain ⟨k1, v1⟩ := hd
    by_cases h1 : k1 = k
    · subst h1
      simp [modifyA, lookupA, if_neg (Ne.symm h)]
    · simp only [modifyA, if_neg h1, lookupA]
      by_cases h2 : k1 = k'
      · simp [h2]
      · simp [h2, ih]

theorem mem_of_lookupA {α : Type} {l : List (String × α)} {k : String} {v : α}
    (h : lookupA l k = some v) : (k, v) ∈ l := by
  induction l with
  | nil => simp [lookupA] at h
  | cons hd tl ih =>
    obtain ⟨k1, v1⟩ := hd
    by_cases h1 : k1 = k
    · subst h1
      simp [lookupA] at h
      subst h
      exact List.mem_cons_self _ _
    · simp [lookupA, h1] at h
      exact List.mem_cons_of_mem _ (ih h)

theorem lookupA_isSome_iff_mem_keysA {α : Type} (l : List (String × α)) (k : String) :
    (lookupA l k).isSome = true ↔ k ∈ keysA l := by
  induction l with
  | nil => simp [lookupA, keysA]
  | cons hd tl ih =>
    obtain ⟨k1, v1⟩ := hd
    by_cases h1 : k1 = k
    · simp [lookupA, h1, keysA]
    · simp [lookupA, h1, keysA, ih, Ne.symm h1]

theorem lookupA_eq_none_of_not_mem {α : Type} {l : List (String × α)} {k : String}
    (h : k ∉ keysA l) : lookupA l k = none := by
  cases hl : lookupA l k with
  | none => rfl
  | some v =>
    exact absurd ((lookupA_isSome_iff_mem_keysA l k).mp (by simp [hl])) h

theorem keysA_setA_mem {α : Type} (l : List (String × α)) (k : String) (v : α)
    (h : k ∈ keysA l) : keysA (setA l k v) = keysA l := by
  induction l with
  | nil => simp [keysA] at h
  | cons hd tl ih =>
    obtain ⟨k1, v1⟩ := hd
    by_cases h1 : k1 = k
    · simp [setA, h1, keysA]
    · have h2 : k ∈ keysA tl := by
        simp only [keysA, List.map_cons, List.mem_cons] at h
        rcases h with h | h
        · exact absurd h.symm h1
        · exact h
      simp only [setA, if_neg h1]
      simp only [keysA, List.map_cons] at ih ⊢
      rw [ih h2]

theorem keysA_setA_new {α : Type} (l : List (String × α)) (k : String) (v : α)
    (h : k ∉ keysA l) : keysA (setA l k v) = keysA l ++ [k] := by
  induction l with
  | nil => simp [setA, keysA]
  | cons hd tl ih =>
    obtain ⟨k1, v1⟩ := hd
    simp only [keysA, List.map_cons, List.mem_cons] at h
    push_neg at h
    have h1 : ¬ k1 = k := fun hh => h.1 hh.symm
    simp only [setA, if_neg h1]
    simp only [keysA, List.map_cons] at ih ⊢
    rw [ih h.2, List.cons_append]

theorem keysA_eraseA {α : Type} (l : List (String × α)) (k : String) :
    keysA (eraseA l k) = (keysA l).erase k := by
  induction l with
  | nil => simp [eraseA, keysA]
  | cons hd tl ih =>
    obtain ⟨k1, v1⟩ := hd
    by_cases h1 : k1 = k
    · simp [eraseA, h1, keysA, List.erase_cons_head]
    · simp only [eraseA, if_neg h1]
      simp only [keysA, List.map_cons] at ih ⊢
      rw [ih, List.erase_cons_tail]
      simp [h1]

theorem keysA_modifyA {α : Type} (l : List (String × α)) (k : String) (f : α → α) :
    keysA (modifyA l k f) = keysA l := by
  induction l with
  | nil => simp [modifyA]
  | cons hd tl ih =>
    obtain ⟨k1, v1⟩ := hd
    by_cases h1 : k1 = k
    · simp [modifyA, h1, keysA]
    · simp only [modifyA, if_neg h1]
      simp only [keysA, List.map_cons] at ih ⊢
      rw [ih]

theorem length_setA_mem {α : Type} (l : List (String × α)) (k : String) (v : α)
    (h : k ∈ keysA l) : (setA l k v).length = l.length := by
  have := keysA_setA_mem l k v h
  have h1 : (keysA (setA l k v)).length = (keysA l).length := by rw [this]
  simpa [keysA] using h1

theorem length_setA_new {α : Type} (l : List (String × α)) (k : String) (v : α)
    (h : k ∉ keysA l) : (setA l k v).length = l.length + 1 := by
  have := keysA_setA_new l k v h
  have h1 : (keysA (setA l k v)).length = (keysA l ++ [k]).length := by rw [this]
  simpa [keysA] using h1

theorem length_eraseA_mem {α : Type} (l : List (String × α)) (k : String)
    (h : k ∈ keysA l) : (eraseA l k).length + 1 = l.length := by
  have h1 : (keysA (eraseA l k)).length = ((keysA l).erase k).length := by
    rw [keysA_eraseA]
  have h2 : ((keysA l).erase k).length = (keysA l).length - 1 :=
    List.length_erase_of_mem h
  have h3 : 1 ≤ (keysA l).length := List.length_pos_of_mem h
  simp only [keysA, List.length_map] at h1 h2 h3 ⊢
  omega

theorem lookupA_eraseA_self_nodup {α : Type} (l : List (String × α)) (k : String)
    (h : (keysA l).Nodup) : lookupA (eraseA l k) k = none := by
  induction l with
  | nil => simp [eraseA, lookupA]
  | cons hd tl ih =>
    obtain ⟨k1, v1⟩ := hd
    simp only [keysA, List.map_cons, List.nodup_cons] at h
    by_cases h1 : k1 = k
    · subst h1
      simp only [eraseA, if_pos rfl]
      exact lookupA_eq_none_of_not_mem h.1
    · simp only [eraseA, if_neg h1, lookupA, if_neg h1]
      exact ih h.2

theorem nodup_keysA_setA {α : Type} (l : List (String × α)) (k : String) (v : α)
    (h : (keysA l).Nodup) : (keysA (setA l k v)).Nodup := by
  by_cases hk : k ∈ keysA l
  · rw [keysA_setA_mem l k v hk]; exact h
  · rw [keysA_setA_new l k v hk]
    simpa [List.nodup_append] using ⟨h, fun hm => hk hm⟩

theorem nodup_keysA_eraseA {α : Type} (l : List (String × α)) (k : String)
    (h : (keysA l).Nodup) : (keysA (eraseA l k)).Nodup := by
  rw [keysA_eraseA]
  exact h.erase k

theorem lookupA_of_mem_nodup {α : Type} {l : List (String × α)} {k : String} {v : α}
    (hn : (keysA l).Nodup) (h : (k, v) ∈ l) : lookupA l k = some v := by
  induction l with
  | nil => simp at h
  | cons hd tl ih =>
    obtain ⟨k1, v1⟩ := hd
    simp only [keysA, List.map_cons, List.nodup_cons] at hn
    rcases List.mem_cons.mp h with h | h
    · obtain ⟨h1, h2⟩ := Prod.mk.injEq .. ▸ h
      simp [lookupA, h1.symm, h2]
    · have hk1 : k1 ≠ k := by
        intro hh
        subst hh
        exact hn.1 (List.mem_map_of_mem Prod.fst h)
      simp [lookupA, hk1, ih hn.2 h]

theorem nodupB_iff {l : List String} : nodupB l = true ↔ l.Nodup := by
  induction l with
  | nil => simp [nodupB]
  | cons k rest ih =>
    simp [nodupB, Bool.and_eq_true, ih, List.nodup_cons, List.elem_iff]

theorem wf_parts {s : TreeState} (h : WF s) :
    wf_keys s = true ∧ wf_ids s = true ∧ wf_parent s = true ∧
    wf_childparent s = true ∧ wf_parentchild s = true ∧ wf_root s = true ∧
    wf_leaf s = true ∧ wf_acyclic s = true := by
  simpa [WF, wfB, Bool.and_eq_true, and_assoc] using h

theorem wf_nodup_nodes {s : TreeState} (h : WF s) : (keysA s.nodes).Nodup := by
  have h1 := (wf_parts h).1
  simp only [wf_keys, Bool.and_eq_true] at h1
  exact nodupB_iff.mp h1.1

theorem wf_keys_eq {s : TreeState} (h : WF s) : keysA s.children = keysA s.nodes := by
  have h1 := (wf_parts h).1
  simp only [wf_keys, Bool.and_eq_true] at h1
  exact eq_of_beq h1.2

theorem wf_nodup_children {s : TreeState} (h : WF s) : (keysA s.children).Nodup := by
  rw [wf_keys_eq h]
  exact wf_nodup_nodes h

theorem wf_lookup_id {s : TreeState} (h : WF s) {k : String} {n : Node}
    (hl : lookupA s.nodes k = some n) : n.id = k := by
  have h1 := (wf_parts h).2.1
  simp only [wf_ids, List.all_eq_true] at h1
  have := h1 (k, n) (mem_of_lookupA hl)
  simp only [Bool.and_eq_true, beq_iff_eq] at this
  exact this.1

theorem wf_key_nonempty {s : TreeState} (h : WF s) {k : String} {n : Node}
    (hl : lookupA s.nodes k = some n) : k ≠ "" := by
  have h1 := (wf_parts h).2.1
  simp only [wf_ids, List.all_eq_true] at h1
  have := h1 (k, n) (mem_of_lookupA hl)
  simp only [Bool.and_eq_true, Bool.not_eq_true', beq_eq_false_iff_ne, ne_eq] at this
  exact this.2

theorem wf_parent_hasKey {s : TreeState} (h : WF s) {k : String} {n : Node} {p : String}
    (hl : lookupA s.nodes k = some n) (hp : n.parent_id = some p) :
    hasKey s.nodes p = true := by
  have h1 := (wf_parts h).2.2.1
  simp only [wf_parent, List.all_eq_true] at h1
  have := h1 (k, n) (mem_of_lookupA hl)
  simpa [hp] using this

theorem wf_child_parent {s : TreeState} (h : WF s) {p c : String}
    (hc : c ∈ childList s p) :
    ∃ n, lookupA s.nodes c = some n ∧ n.parent_id = some p := by
  have h1 := (wf_parts h).2.2.2.1
  simp only [wf_childparent, List.all_eq_true] at h1
  unfold childList at hc
  cases hl : lookupA s.children p with
  | none => rw [hl] at hc; simp at hc
  | some l =>
    rw [hl] at hc
    simp only [Option.getD_some] at hc
    have := h1 (p, l) (mem_of_lookupA hl)
    simp only [Bool.and_eq_true, List.all_eq_true] at this
    have h2 := this.2 c hc
    cases hcl : lookupA s.nodes c with
    | none => rw [hcl] at h2; simp at h2
    | some n =>
      rw [hcl] at h2
      simp only [beq_iff_eq] at h2
      exact ⟨n, rfl, h2⟩

theorem wf_childList_nodup {s : TreeState} (h : WF s) (p : String) :
    (childList s p).Nodup := by
  have h1 := (wf_parts h).2.2.2.1
  simp only [wf_childparent, List.all_eq_true] at h1
  unfold childList
  cases hl : lookupA s.children p with
  | none => simp
  | some l =>
    have := h1 (p, l) (mem_of_lookupA hl)
    simp only [Bool.and_eq_true] at this
    simpa using nodupB_iff.mp this.1

theorem wf_parent_child {s : TreeState} (h : WF s) {k : String} {n : Node} {p : String}
    (hl : lookupA s.nodes k = some n) (hp : n.parent_id = some p) :
    k ∈ childList s p := by
  have h1 := (wf_parts h).2.2.2.2.1
  simp only [wf_parentchild, List.all_eq_true] at h1
  have := h1 (k, n) (mem_of_lookupA hl)
  rw [hp] at this
  simpa [List.elem_iff] using this

theorem wf_root_iff {s : TreeState} (h : WF s) {k : String} {n : Node}
    (hl : lookupA s.nodes k = some n) :
    n.parent_id = none ↔ s.root_id = some k := by
  have h1 := (wf_parts h).2.2.2.2.2.1
  simp only [wf_root, Bool.and_eq_true, List.all_eq_true] at h1
  have := h1.1 (k, n) (mem_of_lookupA hl)
  cases hpar : n.parent_id <;> cases hroot : decide (s.root_id = some k) <;>
    simp_all [Option.isNone]

theorem wf_root_hasKey {s : TreeState} (h : WF s) {r : String}
    (hr : s.root_id = some r) : hasKey s.nodes r = true := by
  have h1 := (wf_parts h).2.2.2.2.2.1
  simp only [wf_root, Bool.and_eq_true] at h1
  have := h1.2
  rw [hr] at this
  exact this

theorem wf_leaf_iff {s : TreeState} (h : WF s) {k : String} {n : Node}
    (hl : lookupA s.nodes k = some n) :
    n.is_leaf = true ↔ childList s k = [] := by
  have h1 := (wf_parts h).2.2.2.2.2.2.1
  simp only [wf_leaf, List.all_eq_true] at h1
  have := h1 (k, n) (mem_of_lookupA hl)
  simp only [beq_iff_eq] at this
  rw [this, List.isEmpty_iff]

theorem wf_reaches {s : TreeState} (h : WF s) {k : String}
    (hk : hasKey s.nodes k = true) :
    reaches_root s s.nodes.length (some k) = true := by
  have h1 := (wf_parts h).2.2.2.2.2.2.2
  simp only [wf_acyclic, List.all_eq_true] at h1
  unfold hasKey at hk
  cases hl : lookupA s.nodes k with
  | none => rw [hl] at hk; simp at hk
  | some n => exact h1 (k, n) (mem_of_lookupA hl)

theorem reaches_root_upPath {s : TreeState} :
    ∀ {f : Nat} {k : String}, reaches_root s f (some k) = true →
    ∃ d, d < f ∧ UpPath s k d := by
  intro f
  induction f with
  | zero => intro k h; simp [reaches_root] at h
  | succ f ih =>
    intro k h
    rw [reaches_root] at h
    cases hl : lookupA s.nodes k with
    | none => rw [hl] at h; simp at h
    | some n =>
      rw [hl] at h
      have h2 : reaches_root s f n.parent_id = true := h
      cases hp : n.parent_id with
      | none => exact ⟨0, Nat.succ_pos f, .root k n hl hp⟩
      | some p =>
        rw [hp] at h2
        obtain ⟨d, hd, hup⟩ := ih h2
        exact ⟨d + 1, Nat.succ_lt_succ hd, .step k n p d hl hp hup⟩

theorem wf_upPath {s : TreeState} (h : WF s) {k : String}
    (hk : hasKey s.nodes k = true) :
    ∃ d, d < s.nodes.length ∧ UpPath s k d :=
  reaches_root_upPath (wf_reaches h hk)

theorem upPath_unique {s : TreeState} :
    ∀ {k : String} {d : Nat}, UpPath s k d →
    ∀ {d' : Nat}, UpPath s k d' → d = d' := by
  intro k d h
  induction h with
  | root k n hl hp =>
    intro d' h'
    cases h' with
    | root => rfl
    | step _ n' p d2 hl2 hp2 _ =>
      rw [hl] at hl2
      cases hl2
      rw [hp] at hp2
      cases hp2
  | step k n p d hl hp hup ih =>
    intro d' h'
    cases h' with
    | root _ n' hl2 hp2 =>
      rw [hl] at hl2
      cases hl2
      rw [hp] at hp2
      cases hp2
    | step _ n' p' d2 hl2 hp2 hup2 =>
      rw [hl] at hl2
      cases hl2
      rw [hp] at hp2
      cases hp2
      rw [ih hup2]

theorem wf_no_self_parent {s : TreeState} (h : WF s) {k : String} {n : Node}
    (hl : lookupA s.nodes k = some n) : n.parent_id ≠ some k := by
  intro hp
  obtain ⟨d, _, hup⟩ := wf_upPath h (show hasKey s.nodes k = true by simp [hasKey, hl])
  have hup2 : UpPath s k (d + 1) := .step k n k d hl hp hup
  have := upPath_unique hup hup2
  omega

theorem inSubtree_of_upReach {s : TreeState} (h : WF s) :
    ∀ {y x : String}, UpReach s y x → InSubtree s x y := by
  intro y x hr
  induction hr with
  | refl k => exact .refl
  | step k n p t hl hp _ ih => exact .child p k ih (wf_parent_child h hl hp)

theorem upReach_of_inSubtree {s : TreeState} (h : WF s) :
    ∀ {x y : String}, InSubtree s x y → UpReach s y x := by
  intro x y hr
  induction hr with
  | refl => exact .refl x
  | child p c _ hc ih =>
    obtain ⟨n, hl, hp⟩ := wf_child_parent h hc
    exact .step c n p x hl hp ih

theorem cycle_walk_spec {s : TreeState} {x : String} :
    ∀ {k : String} {d : Nat}, UpPath s k d → ∀ {fuel : Nat}, d < fuel →
    (cycle_walk s x fuel (some k) = true ↔ UpReach s k x) := by
  intro k d h
  induction h with
  | root k n hl hp =>
    intro fuel hf
    obtain ⟨f, rfl⟩ : ∃ f, fuel = f + 1 := ⟨fuel - 1, by omega⟩
    by_cases hx : k = x
    · subst hx
      constructor
      · intro _
        exact .refl k
      · intro _
        simp [cycle_walk]
    · simp only [cycle_walk, if_neg hx, hl, hp]
      constructor
      · intro hc
        cases f <;> simp [cycle_walk] at hc
      · intro hr
        cases hr with
        | refl => exact absurd rfl hx
        | step _ n' p _ hl2 hp2 _ =>
          rw [hl] at hl2
          cases hl2
          rw [hp] at hp2
          cases hp2
  | step k n p d hl hp hup ih =>
    intro fuel hf
    obtain ⟨f, rfl⟩ : ∃ f, fuel = f + 1 := ⟨fuel - 1, by omega⟩
    by_cases hx : k = x
    · subst hx
      constructor
      · intro _
        exact .refl k
      · intro _
        simp [cycle_walk]
    · simp only [cycle_walk, if_neg hx, hl, hp]
      rw [ih (by omega)]
      constructor
      · intro hr
        exact .step k n p x hl hp hr
      · intro hr
        cases hr with
        | refl => exact absurd rfl hx
        | step _ n' p' _ hl2 hp2 hr2 =>
          rw [hl] at hl2
          cases hl2
          rw [hp] at hp2
          cases hp2
          exact hr2

theorem would_create_cycle_iff {s : TreeState} (h : WF s) {x y : String}
    (hy : hasKey s.nodes y = true) :
    would_create_cycle s x y = true ↔ InSubtree s x y := by
  obtain ⟨d, hd, hup⟩ := wf_upPath h hy
  rw [would_create_cycle, cycle_walk_spec hup (by omega)]
  exact ⟨inSubtree_of_upReach h, upReach_of_inSubtree h⟩

theorem upReach_depth_le {s : TreeState} :
    ∀ {a b : String}, UpReach s a b →
    ∀ {da db : Nat}, UpPath s a da → UpPath s b db → db ≤ da := by
  intro a b hr
  induction hr with
  | refl k =>
    intro da db h1 h2
    rw [upPath_unique h1 h2]
  | step k n p t hl hp _ ih =>
    intro da db h1 h2
    cases h1 with
    | root _ n' hl2 hp2 =>
      rw [hl] at hl2
      cases hl2
      rw [hp] at hp2
      cases hp2
    | step _ n' p' d2 hl2 hp2 hup2 =>
      rw [hl] at hl2
      cases hl2
      rw [hp] at hp2
      cases hp2
      have := ih hup2 h2
      omega

/-- A node is never in the proper ancestor chain of its own parent: moving a
node under its current parent passes the cycle check. -/
theorem wf_parent_not_inSubtree {s : TreeState} (h : WF s) {x : String} {n : Node}
    {p : String} (hl : lookupA s.nodes x = some n) (hp : n.parent_id = some p) :
    ¬ InSubtree s x p := by
  intro hsub
  have hr : UpReach s p x := upReach_of_inSubtree h hsub
  obtain ⟨dx, _, hx⟩ := wf_upPath h (show hasKey s.nodes x = true by simp [hasKey, hl])
  have hpk : hasKey s.nodes p = true := wf_parent_hasKey h hl hp
  obtain ⟨dp, _, hpp⟩ := wf_upPath h hpk
  have h1 : dx ≤ dp := upReach_depth_le hr hpp hx
  have h2 : UpPath s x (dp + 1) := .step x n p dp hl hp hpp
  have := upPath_unique hx h2
  omega

/-! ### Resolving children and sibling lists -/

theorem lookups_ok {s : TreeState} (h : WF s) :
    ∀ {ids : List String}, (∀ c ∈ ids, ∃ n, lookupA s.nodes c = some n) →
    (ids.filterMap (fun c => lookupA s.nodes c)).map (fun nd => nd.id) = ids ∧
    ∀ nd ∈ ids.filterMap (fun c => lookupA s.nodes c), lookupA s.nodes nd.id = some nd := by
  intro ids
  induction ids with
  | nil => simp
  | cons c cs ih =>
    intro hall
    obtain ⟨n, hn⟩ := hall c (by simp)
    have hrest := ih (fun c2 hc2 => hall c2 (by simp [hc2]))
    have hid : n.id = c := wf_lookup_id h hn
    constructor
    · simp [List.filterMap_cons, hn, hid, hrest.1]
    · intro nd hnd
      simp only [List.filterMap_cons, hn] at hnd
      rcases List.mem_cons.mp hnd with rfl | hnd
      · rw [hid]
        exact hn
      · exact hrest.2 nd hnd

theorem get_children_ok {s : TreeState} (h : WF s) {p : String}
    (hp : hasKey s.nodes p = true) :
    ∃ l, get_children s p = .ok l ∧ l.map (fun nd => nd.id) = childList s p ∧
      ∀ nd ∈ l, lookupA s.nodes nd.id = some nd := by
  obtain ⟨np, hnp⟩ : ∃ np, lookupA s.nodes p = some np := by
    unfold hasKey at hp
    cases hl : lookupA s.nodes p with
    | none => rw [hl] at hp; simp at hp
    | some v => exact ⟨v, rfl⟩
  have hall : ∀ c ∈ childList s p, ∃ n, lookupA s.nodes c = some n := fun c hc =>
    (wf_child_parent h hc).imp (fun n hn => hn.1)
  obtain ⟨h1, h2⟩ := lookups_ok h hall
  exact ⟨_, by simp [get_children, get_node, hnp], h1, h2⟩

theorem get_siblings_ok {s : TreeState} (h : WF s) {x : String} {n : Node}
    (hl : lookupA s.nodes x = some n) :
    ∃ l, get_siblings s x = .ok l ∧
      l.map (fun nd => nd.id) =
        (match n.parent_id with
         | none => [x]
         | some p => childList s p) ∧
      ∀ nd ∈ l, lookupA s.nodes nd.id = some nd := by
  cases hp : n.parent_id with
  | none =>
    refine ⟨[n], by simp [get_siblings, get_node, hl, hp], by simp [wf_lookup_id h hl], ?_⟩
    intro nd hnd
    simp only [List.mem_singleton] at hnd
    subst hnd
    rw [wf_lookup_id h hl]
    exact hl
  | some p =>
    have hpk := wf_parent_hasKey h hl hp
    obtain ⟨l, hgc, hmap, hmem⟩ := get_children_ok h hpk
    exact ⟨l, by simp [get_siblings, get_node, hl, hp, hgc], hmap, hmem⟩

/-- C1.  The claim states that a `create` with no `parent_id` while a root
already exists fails `InvalidOperation` and leaves the node store, children
index and root pointer unchanged.  The code violates this: `create_node`
inserts the new node into `_nodes` and `_children` before checking root
uniqueness, so after the failing call the node with the given id is stored.
This theorem evaluates the code at the failing input: starting from the
one-node tree with root `a`, `create_node "x" "second root"` (no parent)
raises `InvalidOperation "Root node already exists"` yet stores node `x`
in both indices; only the root pointer is unchanged. -/
theorem c1_second_root_create_mutates_state :
    (create_node st_a "x" "second root" none [] 1).1 =
      .error (.invalidOperation "Root node already exists") ∧
    lookupA (create_node st_a "x" "second root" none [] 1).2.nodes "x" =
      some ⟨"x", none, "second root", [], true, 1, 1⟩ ∧
    lookupA (create_node st_a "x" "second root" none [] 1).2.children "x" = some [] ∧
    (create_node st_a "x" "second root" none [] 1).2.root_id = some "a" ∧
    get_node (create_node st_a "x" "second root" none [] 1).2 "x" =
      .ok ⟨"x", none, "second root", [], true, 1, 1⟩ := by
  refine ⟨by decide, by decide, by decide, by decide, by decide⟩

/-- C4 (amended).  When the requested id is already in use, `create_node`
fails with the `InvalidOperation` error kind (the code has no `AlreadyExists`
kind) carrying the message `"Node <id> already exists"`, and the state —
node store, children index and root pointer — is returned unchanged. -/
theorem c4_duplicate_create_fails_invalid_operation
    (s : TreeState) (node_id description : String) (parent_id : Option String)
    (metadata : Metadata) (now : Nat)
    (h : hasKey s.nodes node_id = true) :
    create_node s node_id description parent_id metadata now =
      (.error (.invalidOperation ("Node " ++ node_id ++ " already exists")), s) := by
  simp [create_node, h]

/-- C4 counterexample to the error kind stated by the claim: creating a
duplicate id produces the `InvalidOperation` kind — the error enumeration of
the code (`TreeNotFoundError`, `CircularReferenceError`,
`InvalidOperationError`) has no `AlreadyExists` kind at all. -/
theorem c4_counterexample_duplicate_create_error_kind :
    (create_node st_a "a" "dup" none [] 1).1 =
      .error (.invalidOperation "Node a already exists") ∧
    ∀ msg, (create_node st_a "a" "dup" none [] 1).1 ≠ .error (.treeNotFound msg) := by
  exact ⟨by decide, fun msg => by simp [st_a, addNode, initState, create_node, hasKey, lookupA, setA]⟩

/-- Witness for C4: the duplicate-create theorem applied to the concrete
one-node tree. -/
theorem c4_witness :
    hasKey st_a.nodes "a" = true ∧
    create_node st_a "a" "dup" none [] 1 =
      (.error (.invalidOperation ("Node " ++ "a" ++ " already exists")), st_a) :=
  ⟨by decide, c4_duplicate_create_fails_invalid_operation st_a "a" "dup" none [] 1 (by decide)⟩

/-! ### C5: navigation on an absent id -/

theorem next_bfs_go_absent {s : TreeState} (h : WF s) {x : String}
    (hx : lookupA s.nodes x = none) :
    ∀ (fuel : Nat) (queue : List Node),
      (∀ nd ∈ queue, lookupA s.nodes nd.id = some nd) →
      next_bfs_go s x fuel queue false = .ok none := by
  intro fuel
  induction fuel with
  | zero => intro queue _; rfl
  | succ fuel ih =>
    intro queue hq
    cases queue with
    | nil => rfl
    | cons current rest =>
      have hcur := hq current (List.mem_cons_self _ _)
      have hne : ¬ (current.id = x) := by
        intro hh
        rw [hh, hx] at hcur
        cases hcur
      obtain ⟨l, hgc, _, hmem⟩ :=
        get_children_ok h (show hasKey s.nodes current.id = true by simp [hasKey, hcur])
      have hstep : next_bfs_go s x (fuel + 1) (current :: rest) false =
          next_bfs_go s x fuel (rest ++ l) (false || (current.id = x)) := by
        simp [next_bfs_go, hgc]
      rw [hstep]
      have : (false || (current.id = x)) = false := by simp [hne]
      rw [this]
      refine ih (rest ++ l) ?_
      intro nd hnd
      rcases List.mem_append.mp hnd with hnd | hnd
      · exact hq nd (List.mem_cons_of_mem _ hnd)
      · exact hmem nd hnd

/-- C5 (amended).  On any well-formed tree, every navigation call applied to
an absent id fails `NotFound` — except `nextBfs`, which never looks the id up:
`compute_next_bfs` on an absent id exhausts its breadth-first enumeration and
returns the absent marker instead of failing. -/
theorem c5_navigation_absent_id (s : TreeState) (x : String) (h : WF s)
    (hx : lookupA s.nodes x = none) :
    zipper_up s x = .error (.treeNotFound ("Node " ++ x ++ " not found")) ∧
    zipper_down s x = .error (.treeNotFound ("Node " ++ x ++ " not found")) ∧
    zipper_left s x = .error (.treeNotFound ("Node " ++ x ++ " not found")) ∧
    zipper_right s x = .error (.treeNotFound ("Node " ++ x ++ " not found")) ∧
    compute_next_dfs s x = .error (.treeNotFound ("Node " ++ x ++ " not found")) ∧
    compute_prev_dfs s x = .error (.treeNotFound ("Node " ++ x ++ " not found")) ∧
    compute_next_bfs s x = .ok none := by
  refine ⟨?_, ?_, ?_, ?_, ?_, ?_, ?_⟩
  · simp [zipper_up, get_parent, get_node, hx]
  · simp [zipper_down, get_children, get_node, hx]
  · simp [zipper_left, get_node, hx]
  · simp [zipper_right, get_node, hx]
  · simp [compute_next_dfs, get_node, hx]
  · simp [compute_prev_dfs, get_node, hx]
  · unfold compute_next_bfs
    cases hr : get_root s with
    | none => rfl
    | some root =>
      refine next_bfs_go_absent h hx _ [root] ?_
      intro nd hnd
      simp only [List.mem_singleton] at hnd
      subst hnd
      unfold get_root at hr
      cases hrid : s.root_id with
      | none => rw [hrid] at hr; cases hr
      | some r =>
        rw [hrid] at hr
        rw [wf_lookup_id h hr]
        exact hr

/-- C5 counterexample: on the (non-empty) sample tree, `compute_next_bfs`
applied to the absent id `ghost` returns the absent marker `none` instead of
failing `NotFound` as the claim states. -/
theorem c5_counterexample_next_bfs_absent :
    compute_next_bfs sampleState "ghost" = .ok none ∧
    lookupA sampleState.nodes "ghost" = none := by
  exact ⟨by decide, by decide⟩

theorem hasKey_some {α : Type} {l : List (String × α)} {k : String}
    (h : hasKey l k = true) : ∃ v, lookupA l k = some v := by
  unfold hasKey at h
  cases hl : lookupA l k with
  | none => rw [hl] at h; cases h
  | some v => exact ⟨v, rfl⟩

theorem wf_nonroot_parent {s : TreeState} (h : WF s) {x : String} {n : Node}
    (hl : lookupA s.nodes x = some n) (hroot : s.root_id ≠ some x) :
    ∃ p, n.parent_id = some p ∧ p ≠ "" ∧ hasKey s.nodes p = true := by
  cases hp : n.parent_id with
  | none => exact absurd ((wf_root_iff h hl).mp hp) hroot
  | some p =>
    have hpk := wf_parent_hasKey h hl hp
    obtain ⟨np, hnp⟩ := hasKey_some hpk
    exact ⟨p, rfl, wf_key_nonempty h hnp, hpk⟩

theorem ne_of_not_cycle {s : TreeState} {x y : String}
    (h : would_create_cycle s x y = false) : y ≠ x := by
  intro hh
  subst hh
  simp [would_create_cycle, cycle_walk] at h

theorem hasKey_eq_mem_keysA {α : Type} (l : List (String × α)) (k : String) :
    hasKey l k = true ↔ k ∈ keysA l := by
  unfold hasKey
  exact lookupA_isSome_iff_mem_keysA l k

/-- Characterization of a successful `move_node`: with the target existing,
the node non-root and the cycle check passing, the move returns the
reparented snapshot, stores it, marks the new parent as a branch, appends the
node at the end of the new parent's children order, and keeps the root. -/
theorem move_node_ok {s : TreeState} (h : WF s) {x : String} {n : Node}
    (hl : lookupA s.nodes x = some n) (hroot : ¬ s.root_id = some x)
    {y : String} (hy : hasKey s.nodes y = true)
    (hnc : would_create_cycle s x y = false) (now : Nat) :
    (move_node s x y now).1 = .ok { n with parent_id := some y, updated_at := now } ∧
    lookupA (move_node s x y now).2.nodes x =
      some { n with parent_id := some y, updated_at := now } ∧
    (∃ ny, lookupA (move_node s x y now).2.nodes y = some ny ∧ ny.is_leaf = false) ∧
    childList (move_node s x y now).2 y =
      (if n.parent_id = some y then (childList s y).erase x else childList s y) ++ [x] ∧
    (move_node s x y now).2.root_id = s.root_id := by
  obtain ⟨opid, hp, hope, hopk⟩ := wf_nonroot_parent h hl hroot
  have hyx : y ≠ x := ne_of_not_cycle hnc
  have hkeq := wf_keys_eq h
  obtain ⟨oldp, holdp⟩ := hasKey_some hopk
  obtain ⟨nyv, hnyv⟩ := hasKey_some hy
  obtain ⟨ycs, hycs⟩ : ∃ l, lookupA s.children y = some l := by
    refine hasKey_some ?_
    rw [hasKey_eq_mem_keysA, hkeq, ← hasKey_eq_mem_keysA]
    exact hy
  by_cases hyo : opid = y
  all_goals by_cases hpcs : (childList s opid).erase x = []
  all_goals
    simp only [move_node, get_node, hl, if_neg hroot, hy, Bool.not_true, Bool.false_eq_true,
      if_false, hnc, hp, truthy, ne_eq, hope, not_false_eq_true, decide_True, if_true,
      Option.getD_some, hpcs, if_pos, if_false, holdp]
  · -- opid = y, pcs = []
    subst hyo
    rw [holdp] at hnyv
    injection hnyv with hnyv2
    subst hnyv2
    simp only [lookupA_setA_self]
    refine ⟨trivial, trivial, ?_, ?_, trivial⟩
    · rw [lookupA_setA_ne _ _ _ _ hyx, lookupA_setA_self]
      exact ⟨_, rfl, rfl⟩
    · simp [childList, lookupA_modifyA_self, hycs, hp]
  · -- opid = y, pcs ≠ []
    subst hyo
    rw [holdp] at hnyv
    injection hnyv with hnyv2
    subst hnyv2
    simp only [holdp, lookupA_setA_self]
    refine ⟨trivial, trivial, ?_, ?_, trivial⟩
    · rw [lookupA_setA_ne _ _ _ _ hyx, lookupA_setA_self]
      exact ⟨_, rfl, rfl⟩
    · simp [childList, lookupA_modifyA_self, hycs, hp]
  · -- opid ≠ y, pcs = []
    have hyo2 : y ≠ opid := Ne.symm hyo
    have hpar : ¬ n.parent_id = some y := by
      rw [hp]
      intro hh
      injection hh with hh2
      exact hyo hh2
    simp only [lookupA_setA_ne _ _ _ _ hyo2, hnyv, lookupA_setA_self]
    refine ⟨trivial, trivial, ?_, ?_, trivial⟩
    · rw [lookupA_setA_ne _ _ _ _ hyx, lookupA_setA_self]
      exact ⟨_, rfl, rfl⟩
    · simp [childList, lookupA_modifyA_self, lookupA_modifyA_ne _ _ _ _ hyo2,
        hycs, hp, hyo, if_neg hpar]
  · -- opid ≠ y, pcs ≠ []
    have hyo2 : y ≠ opid := Ne.symm hyo
    have hpar : ¬ n.parent_id = some y := by
      rw [hp]
      intro hh
      injection hh with hh2
      exact hyo hh2
    simp only [hnyv, lookupA_setA_self]
    refine ⟨trivial, trivial, ?_, ?_, trivial⟩
    · rw [lookupA_setA_ne _ _ _ _ hyx, lookupA_setA_self]
      exact ⟨_, rfl, rfl⟩
    · simp [childList, lookupA_modifyA_self, lookupA_modifyA_ne _ _ _ _ hyo2,
        hycs, hp, hyo, if_neg hpar]

/-- Witness for C5: the navigation theorem applied to the sample tree and the
absent id `ghost`. -/
theorem c5_witness :
    WF sampleState ∧
    zipper_up sampleState "ghost" =
      .error (.treeNotFound ("Node " ++ "ghost" ++ " not found")) ∧
    compute_next_bfs sampleState "ghost" = .ok none := by
  have h : WF sampleState := (by decide : wfB sampleState = true)
  have hx : lookupA sampleState.nodes "ghost" = none := by decide
  obtain ⟨h1, _, _, _, _, _, h7⟩ := c5_navigation_absent_id sampleState "ghost" h hx
  exact ⟨h, h1, h7⟩

/-! ### C3 and C10: the move cycle check -/

theorem move_node_cycle_err {s : TreeState} {x : String} {n : Node}
    (hl : lookupA s.nodes x = some n) (hroot : ¬ s.root_id = some x)
    {y : String} (hy : hasKey s.nodes y = true)
    (hc : would_create_cycle s x y = true) (now : Nat) :
    move_node s x y now =
      (.error (.circularReference
        ("Moving " ++ x ++ " to " ++ y ++ " would create a cycle")), s) := by
  simp [move_node, get_node, hl, hroot, hy, hc]

/-- C3.  For an existing non-root node `x` and an existing target `y`, `move`
fails with `CircularReference` exactly when `y` is `x` itself or a descendant
of `x` (`InSubtree s x y` is the descendant-or-self relation, defined by
following the children index downward from `x`).  The cycle check
(`_would_create_cycle`) walks the parent chain upward from `y` comparing each
visited id with `x`, and it runs before any mutation: whenever the move is
rejected with `CircularReference` the returned state is exactly the input
state. -/
theorem c3_cycle_check_iff_descendant (s : TreeState) (x y : String) (n : Node) (now : Nat)
    (h : WF s) (hl : lookupA s.nodes x = some n) (hroot : ¬ s.root_id = some x)
    (hy : hasKey s.nodes y = true) :
    ((∃ msg, (move_node s x y now).1 = .error (.circularReference msg)) ↔
      InSubtree s x y) ∧
    (∀ msg, (move_node s x y now).1 = .error (.circularReference msg) →
      (move_node s x y now).2 = s) := by
  constructor
  · constructor
    · rintro ⟨msg, hmsg⟩
      by_contra hns
      have hnc : would_create_cycle s x y = false := by
        cases hcyc : would_create_cycle s x y
        · rfl
        · exact absurd ((would_create_cycle_iff h hy).mp hcyc) hns
      have hok := (move_node_ok h hl hroot hy hnc now).1
      rw [hmsg] at hok
      cases hok
    · intro hsub
      have hc : would_create_cycle s x y = true := (would_create_cycle_iff h hy).mpr hsub
      rw [move_node_cycle_err hl hroot hy hc now]
      exact ⟨_, rfl⟩
  · intro msg hmsg
    cases hcyc : would_create_cycle s x y
    · have hok := (move_node_ok h hl hroot hy hcyc now).1
      rw [hmsg] at hok
      cases hok
    · rw [move_node_cycle_err hl hroot hy hcyc now]

/-- Witness for C3: on the chain `r → a → b`, moving `a` under its descendant
`b` is rejected with `CircularReference` and leaves the state untouched. -/
theorem c3_witness :
    (∃ msg, (move_node chainState "a" "b" 7).1 = .error (.circularReference msg)) ∧
    (move_node chainState "a" "b" 7).2 = chainState := by
  have h : WF chainState := (by decide : wfB chainState = true)
  obtain ⟨n, hn⟩ : ∃ n, lookupA chainState.nodes "a" = some n := ⟨_, rfl⟩
  have hsub : InSubtree chainState "a" "b" :=
    .child "a" "b" .refl (by decide)
  have hmain := c3_cycle_check_iff_descendant chainState "a" "b" n 7 h hn
    (by decide) (by decide)
  have herr := hmain.1.mpr hsub
  obtain ⟨msg, hmsg⟩ := herr
  exact ⟨⟨msg, hmsg⟩, hmain.2 msg hmsg⟩

/-- C10.  Moving an existing non-root node `x` to its own current parent `p`
is not treated as a circular reference: the move succeeds, and afterwards `x`
is the last element of `p`'s children order (the child list becomes the old
list with `x` removed, then `x` appended). -/
theorem c10_move_to_own_parent (s : TreeState) (x p : String) (n : Node) (now : Nat)
    (h : WF s) (hl : lookupA s.nodes x = some n) (hroot : ¬ s.root_id = some x)
    (hp : n.parent_id = some p) :
    (move_node s x p now).1 = .ok { n with parent_id := some p, updated_at := now } ∧
    childList (move_node s x p now).2 p = (childList s p).erase x ++ [x] ∧
    (childList (move_node s x p now).2 p).getLast? = some x := by
  have hpk : hasKey s.nodes p = true := wf_parent_hasKey h hl hp
  have hnsub : ¬ InSubtree s x p := wf_parent_not_inSubtree h hl hp
  have hnc : would_create_cycle s x p = false := by
    cases hcyc : would_create_cycle s x p
    · rfl
    · exact absurd ((would_create_cycle_iff h hpk).mp hcyc) hnsub
  obtain ⟨h1, _, _, h4, _⟩ := move_node_ok h hl hroot hpk hnc now
  rw [if_pos hp] at h4
  exact ⟨h1, h4, by rw [h4]; exact List.getLast?_concat _⟩

/-- Witness for C10: in the sample tree, moving `a1` to its own parent `a`
succeeds and repositions `a1` after `a2`. -/
theorem c10_witness :
    (move_node sampleState "a1" "a" 9).1 =
      .ok ⟨"a1", some "a", "A1", [], true, 2, 9⟩ ∧
    childList (move_node sampleState "a1" "a" 9).2 "a" = ["a2", "a1"] ∧
    (childList (move_node sampleState "a1" "a" 9).2 "a").getLast? = some "a1" := by
  have h : WF sampleState := (by decide : wfB sampleState = true)
  have hl : lookupA sampleState.nodes "a1" = some ⟨"a1", some "a", "A1", [], true, 2, 2⟩ := by
    decide
  obtain ⟨h1, h2, h3⟩ := c10_move_to_own_parent sampleState "a1" "a"
    ⟨"a1", some "a", "A1", [], true, 2, 2⟩ 9 h hl (by decide) rfl
  refine ⟨h1, ?_, h3⟩
  rw [h2]
  decide

theorem leafInv_of_wf {s : TreeState} (h : WF s) : LeafInv s :=
  fun _ n hkn => wf_leaf_iff h hkn

theorem storeInv_of_wf {s : TreeState} (h : WF s) : StoreInv s :=
  ⟨wf_nodup_nodes h, wf_keys_eq h, leafInv_of_wf h⟩

theorem nodup_append_singleton {l : List String} {a : String}
    (h : l.Nodup) (ha : a ∉ l) : (l ++ [a]).Nodup := by
  simpa [List.nodup_append] using ⟨h, fun hm => ha hm⟩

theorem storeInv_insert_fresh {s : TreeState} (hs : StoreInv s) {node_id : String}
    (hfresh : node_id ∉ keysA s.nodes) {nd : Node} (hleaf : nd.is_leaf = true)
    (r : Option String) :
    StoreInv ⟨setA s.nodes node_id nd, setA s.children node_id [], r⟩ := by
  obtain ⟨hnd, hke, hlf⟩ := hs
  have hfreshC : node_id ∉ keysA s.children := by rw [hke]; exact hfresh
  refine ⟨nodup_keysA_setA _ _ _ hnd, ?_, ?_⟩
  · unfold KeysEq
    rw [keysA_setA_new _ _ _ hfresh, keysA_setA_new _ _ _ hfreshC, hke]
  · intro k n hkn
    by_cases hk : k = node_id
    · subst hk
      rw [lookupA_setA_self] at hkn
      injection hkn with hkn
      subst hkn
      simp [hleaf, childList, lookupA_setA_self]
    · rw [lookupA_setA_ne _ _ _ _ hk] at hkn
      have := hlf k n hkn
      simpa [childList, lookupA_setA_ne _ _ _ _ hk] using this

theorem create_node_storeInv (s : TreeState) (hs : StoreInv s)
    (node_id description : String) (parent_id : Option String) (md : Metadata) (now : Nat) :
    StoreInv (create_node s node_id description parent_id md now).2 := by
  by_cases hdup : hasKey s.nodes node_id
  · simpa [create_node, hdup] using hs
  · have hfresh : node_id ∉ keysA s.nodes := by
      rw [← hasKey_eq_mem_keysA]
      simpa using hdup
    obtain ⟨hnd, hke, hlf⟩ := hs
    have hfreshC : node_id ∉ keysA s.children := by rw [hke]; exact hfresh
    cases parent_id with
    | none =>
      cases hro : s.root_id with
      | none =>
        simp only [create_node, hdup, Bool.false_eq_true, if_false, Option.isSome_none,
          Bool.false_and, hro, Option.isSome_some, Option.getD_some]
        exact storeInv_insert_fresh ⟨hnd, hke, hlf⟩ hfresh rfl _
      | some r =>
        simp only [create_node, hdup, Bool.false_eq_true, if_false, Option.isSome_none,
          Bool.false_and, hro, Option.isSome_some, Option.getD_some]
        exact storeInv_insert_fresh ⟨hnd, hke, hlf⟩ hfresh rfl _
    | some pid =>
      by_cases hpk : hasKey s.nodes pid
      · obtain ⟨p0, hp0⟩ := hasKey_some hpk
        have hpidne : pid ≠ node_id := by
          intro hh
          subst hh
          exact hdup hpk
        have hnodepid : node_id ≠ pid := Ne.symm hpidne
        obtain ⟨pcl, hpcl⟩ : ∃ l, lookupA s.children pid = some l := by
          refine hasKey_some ?_
          rw [hasKey_eq_mem_keysA, hke, ← hasKey_eq_mem_keysA]
          exact hpk
        simp only [create_node, hdup, Bool.false_eq_true, if_false, Option.isSome_some,
          Bool.true_and, hpk, Bool.not_true, Option.getD_some,
          lookupA_setA_ne _ _ _ _ hpidne, hp0]
        refine ⟨?_, ?_, ?_⟩
        · rw [keysA_setA_mem, keysA_setA_new _ _ _ hfresh]
          · exact nodup_append_singleton hnd hfresh
          · rw [keysA_setA_new _ _ _ hfresh]
            exact List.mem_append_left _ ((hasKey_eq_mem_keysA _ _).mp hpk)
        · unfold KeysEq
          rw [keysA_modifyA, keysA_setA_new _ _ _ hfreshC,
            keysA_setA_mem, keysA_setA_new _ _ _ hfresh, hke]
          rw [keysA_setA_new _ _ _ hfresh]
          exact List.mem_append_left _ ((hasKey_eq_mem_keysA _ _).mp hpk)
        · intro k n hkn
          by_cases hk : k = pid
          · subst hk
            rw [lookupA_setA_self] at hkn
            injection hkn with hkn
            subst hkn
            simp only [childList, lookupA_modifyA_self, lookupA_setA_ne _ _ _ _ hpidne,
              hpcl, Option.map_some, Option.getD_some]
            simp
          · rw [lookupA_setA_ne _ _ _ _ hk] at hkn
            by_cases hk2 : k = node_id
            · subst hk2
              rw [lookupA_setA_self] at hkn
              injection hkn with hkn
              subst hkn
              simp [childList, lookupA_modifyA_ne _ _ _ _ hnodepid, lookupA_setA_self]
            · rw [lookupA_setA_ne _ _ _ _ hk2] at hkn
              have := hlf k n hkn
              simpa [childList, lookupA_modifyA_ne _ _ _ _ hk,
                lookupA_setA_ne _ _ _ _ hk2] using this
      · simpa [create_node, hdup, hpk] using ⟨hnd, hke, hlf⟩

theorem update_node_storeInv (s : TreeState) (hs : StoreInv s)
    (node_id : String) (description : Option String) (md : Option Metadata) (now : Nat) :
    StoreInv (update_node s node_id description md now).2 := by
  obtain ⟨hnd, hke, hlf⟩ := hs
  cases hl : lookupA s.nodes node_id with
  | none => simpa [update_node, get_node, hl] using ⟨hnd, hke, hlf⟩
  | some node =>
    have hmem : node_id ∈ keysA s.nodes := (hasKey_eq_mem_keysA _ _).mp (by simp [hasKey, hl])
    simp only [update_node, get_node, hl]
    refine ⟨?_, ?_, ?_⟩
    · rw [keysA_setA_mem _ _ _ hmem]
      exact hnd
    · unfold KeysEq
      rw [keysA_setA_mem _ _ _ hmem]
      exact hke
    · intro k n hkn
      by_cases hk : k = node_id
      · subst hk
        rw [lookupA_setA_self] at hkn
        injection hkn with hn2
        subst hn2
        have hbase := hlf k node hl
        cases description <;> cases md <;> simpa [childList] using hbase
      · rw [lookupA_setA_ne _ _ _ _ hk] at hkn
        simpa [childList] using hlf k n hkn

/-- Erasing a node's own entries from both indices preserves the store
invariants (a dangling id inside some children list does not disturb the
leaf/children coherence). -/
theorem storeInv_erase_entry {t : TreeState} (h : StoreInv t) (node_id : String)
    (r : Option String) :
    StoreInv ⟨eraseA t.nodes node_id, eraseA t.children node_id, r⟩ := by
  obtain ⟨hnd, hke, hlf⟩ := h
  refine ⟨?_, ?_, ?_⟩
  · rw [keysA_eraseA]
    exact hnd.erase _
  · unfold KeysEq
    rw [keysA_eraseA, keysA_eraseA, hke]
  · intro k n hkn
    simp only at hkn
    by_cases hk : k = node_id
    · subst hk
      rw [lookupA_eraseA_self_nodup _ _ hnd] at hkn
      cases hkn
    · rw [lookupA_eraseA_ne _ _ _ hk] at hkn
      have := hlf k n hkn
      rw [childList]
      simp only
      rw [lookupA_eraseA_ne _ _ _ hk]
      exact this

/-- Removing `node_id` from `pid`'s children list and recomputing `pid`'s
leaf flag the way `delete_node` (and `move_node`'s old-parent step) does
preserves the store invariants. -/
theorem storeInv_detach {t : TreeState} (h : StoreInv t) (pid node_id : String)
    (now : Nat) (r : Option String) :
    StoreInv ⟨(if (childList t pid).erase node_id = [] then
        match lookupA t.nodes pid with
        | some parent => setA t.nodes pid { parent with is_leaf := true, updated_at := now }
        | none => t.nodes
      else t.nodes),
      modifyA t.children pid (fun l => l.erase node_id), r⟩ := by
  obtain ⟨hnd, hke, hlf⟩ := h
  have hkeys : keysA (if (childList t pid).erase node_id = [] then
        match lookupA t.nodes pid with
        | some parent => setA t.nodes pid { parent with is_leaf := true, updated_at := now }
        | none => t.nodes
      else t.nodes) = keysA t.nodes := by
    by_cases hpcs : (childList t pid).erase node_id = []
    · rw [if_pos hpcs]
      cases hpl : lookupA t.nodes pid with
      | none => rfl
      | some parent =>
        exact keysA_setA_mem _ _ _ ((hasKey_eq_mem_keysA _ _).mp (by simp [hasKey, hpl]))
    · rw [if_neg hpcs]
  refine ⟨?_, ?_, ?_⟩
  · simpa only using hkeys ▸ hnd
  · unfold KeysEq
    simp only
    rw [hkeys, keysA_modifyA, hke]
  · intro k n hkn
    simp only at hkn
    have hchild : ∀ q, childList
        ⟨(if (childList t pid).erase node_id = [] then
          match lookupA t.nodes pid with
          | some parent => setA t.nodes pid { parent with is_leaf := true, updated_at := now }
          | none => t.nodes
        else t.nodes),
        modifyA t.children pid (fun l => l.erase node_id), r⟩ q =
        (if q = pid then (childList t q).erase node_id else childList t q) := by
      intro q
      by_cases hq : q = pid
      · subst hq
        rw [if_pos rfl, childList]
        simp only
        rw [lookupA_modifyA_self]
        cases hclq : lookupA t.children q with
        | none => simp [childList, hclq]
        | some l => simp [childList, hclq]
      · rw [if_neg hq, childList]
        simp only
        rw [lookupA_modifyA_ne _ _ _ _ hq]
        rfl
    rw [hchild k]
    by_cases hk : k = pid
    · subst hk
      rw [if_pos rfl]
      by_cases hpcs : (childList t k).erase node_id = []
      · rw [if_pos hpcs] at hkn
        cases hpl : lookupA t.nodes k with
        | none =>
          rw [hpl] at hkn
          rw [hpl] at hkn
          cases hkn
        | some parent =>
          rw [hpl, lookupA_setA_self] at hkn
          injection hkn with hkn
          subst hkn
          simp [hpcs]
      · rw [if_neg hpcs] at hkn
        have hbase := hlf k n hkn
        have hne : ¬ childList t k = [] := by
          intro hh
          apply hpcs
          rw [hh]
          rfl
        constructor
        · intro hflag
          exact absurd (hbase.mp hflag) hne
        · intro hh
          exact absurd hh hpcs
    · rw [if_neg hk]
      have hkn2 : lookupA t.nodes k = some n := by
        by_cases hpcs : (childList t pid).erase node_id = []
        · rw [if_pos hpcs] at hkn
          cases hpl : lookupA t.nodes pid with
          | none =>
            rw [hpl] at hkn
            exact hkn
          | some parent =>
            rw [hpl, lookupA_setA_ne _ _ _ _ hk] at hkn
            exact hkn
        · rw [if_neg hpcs] at hkn
          exact hkn
      exact hlf k n hkn2

theorem delete_go_storeInv :
    ∀ fuel : Nat, ∀ s node_id now, StoreInv s →
      StoreInv (delete_go fuel s node_id now).2 := by
  intro fuel
  induction fuel with
  | zero =>
    intro s node_id now hs
    simpa [delete_go] using hs
  | succ fuel ih =>
    have ihlist : ∀ ids s now, StoreInv s → StoreInv (delete_list fuel s ids now).2 := by
      intro ids
      induction ids with
      | nil =>
        intro s now hs
        simpa [delete_list] using hs
      | cons c cs ihc =>
        intro s now hs
        have hgo := ih s c now hs
        cases hres : delete_go fuel s c now with
        | mk res s1 =>
          rw [hres] at hgo
          have hgo1 : StoreInv s1 := hgo
          cases res with
          | error e => simpa [delete_list, hres] using hgo1
          | ok u =>
            have := ihc s1 now hgo1
            simpa [delete_list, hres] using this
    intro s node_id now hs
    cases hl : lookupA s.nodes node_id with
    | none => simpa [delete_go, get_node, hl] using hs
    | some node =>
      by_cases hroot : s.root_id = some node_id
      · simpa [delete_go, get_node, hl, hroot] using hs
      · have hlist := ihlist (childList s node_id) s now hs
        cases hres : delete_list fuel s (childList s node_id) now with
        | mk res s1 =>
          rw [hres] at hlist
          have hs1 : StoreInv s1 := hlist
          cases res with
          | error e => simpa [delete_go, get_node, hl, hroot, hres] using hs1
          | ok u =>
            by_cases htr : truthy node.parent_id = true
            · have hdet := storeInv_detach hs1 (node.parent_id.getD "") node_id now s1.root_id
              have hfin := storeInv_erase_entry hdet node_id s1.root_id
              by_cases hpcs : (childList s1 (node.parent_id.getD "")).erase node_id = []
              · cases hpl : lookupA s1.nodes (node.parent_id.getD "") with
                | some parent =>
                  rw [if_pos hpcs, hpl] at hfin
                  simpa [delete_go, get_node, hl, hroot, hres, htr, hpcs, hpl] using hfin
                | none =>
                  rw [if_pos hpcs, hpl] at hfin
                  simpa [delete_go, get_node, hl, hroot, hres, htr, hpcs, hpl] using hfin
              · rw [if_neg hpcs] at hfin
                simpa [delete_go, get_node, hl, hroot, hres, htr, hpcs] using hfin
            · have hfin := storeInv_erase_entry hs1 node_id s1.root_id
              simpa [delete_go, get_node, hl, hroot, hres, htr] using hfin

/-- Appending a child id to an existing node's children list and clearing its
leaf flag (the new-parent step of `create_node` and `move_node`) preserves
the store invariants. -/
theorem storeInv_attach {t : TreeState} (ht : StoreInv t) {y : String} {ny : Node}
    (hny : lookupA t.nodes y = some ny) (x : String) (now : Nat) (r : Option String) :
    StoreInv ⟨setA t.nodes y { ny with is_leaf := false, updated_at := now },
      modifyA t.children y (fun l => l ++ [x]), r⟩ := by
  obtain ⟨hnd, hke, hlf⟩ := ht
  obtain ⟨ycl, hycl⟩ : ∃ l, lookupA t.children y = some l := by
    refine hasKey_some ?_
    rw [hasKey_eq_mem_keysA, hke, ← hasKey_eq_mem_keysA]
    simp [hasKey, hny]
  have hymem : y ∈ keysA t.nodes := (hasKey_eq_mem_keysA _ _).mp (by simp [hasKey, hny])
  refine ⟨?_, ?_, ?_⟩
  · rw [keysA_setA_mem _ _ _ hymem]
    exact hnd
  · unfold KeysEq
    simp only
    rw [keysA_modifyA, keysA_setA_mem _ _ _ hymem, hke]
  · intro k n hkn
    simp only at hkn
    by_cases hk : k = y
    · subst hk
      rw [lookupA_setA_self] at hkn
      injection hkn with hkn
      subst hkn
      simp [childList, lookupA_modifyA_self, hycl]
    · rw [lookupA_setA_ne _ _ _ _ hk] at hkn
      have := hlf k n hkn
      simpa [childList, lookupA_modifyA_ne _ _ _ _ hk] using this

/-- Replacing a stored node by a snapshot with the same leaf flag (the final
step of `move_node`, and the whole of `update_node`) preserves the store
invariants. -/
theorem storeInv_update_entry {t : TreeState} (ht : StoreInv t) {x : String}
    {old nw : Node} (hx : lookupA t.nodes x = some old)
    (hflag : nw.is_leaf = old.is_leaf) (r : Option String) :
    StoreInv ⟨setA t.nodes x nw, t.children, r⟩ := by
  obtain ⟨hnd, hke, hlf⟩ := ht
  have hxmem : x ∈ keysA t.nodes := (hasKey_eq_mem_keysA _ _).mp (by simp [hasKey, hx])
  refine ⟨?_, ?_, ?_⟩
  · rw [keysA_setA_mem _ _ _ hxmem]
    exact hnd
  · unfold KeysEq
    simp only
    rw [keysA_setA_mem _ _ _ hxmem, hke]
  · intro k n hkn
    simp only at hkn
    by_cases hk : k = x
    · subst hk
      rw [lookupA_setA_self] at hkn
      injection hkn with hkn
      subst hkn
      rw [hflag]
      simpa [childList] using hlf k old hx
    · rw [lookupA_setA_ne _ _ _ _ hk] at hkn
      simpa [childList] using hlf k n hkn

/-- `move_node` preserves the store invariants on any outcome. -/
theorem move_node_storeInv (s : TreeState) (h : WF s) (x y : String) (now : Nat) :
    StoreInv (move_node s x y now).2 := by
  have hs := storeInv_of_wf h
  cases hl : lookupA s.nodes x with
  | none => simpa [move_node, get_node, hl] using hs
  | some n =>
    by_cases hroot : s.root_id = some x
    · simpa [move_node, get_node, hl, hroot] using hs
    · by_cases hy : hasKey s.nodes y = true
      · by_cases hcyc : would_create_cycle s x y = true
        · simpa [move_node, get_node, hl, hroot, hy, hcyc] using hs
        · have hnc : would_create_cycle s x y = false := by
            cases hc2 : would_create_cycle s x y
            · rfl
            · exact absurd hc2 hcyc
          obtain ⟨opid, hp, hope, hopk⟩ := wf_nonroot_parent h hl hroot
          have hyx : y ≠ x := ne_of_not_cycle hnc
          have hxy : x ≠ y := Ne.symm hyx
          have hxopid : x ≠ opid := by
            intro hh
            apply wf_no_self_parent h hl
            rw [hp, ← hh]
          have hopx : opid ≠ x := Ne.symm hxopid
          obtain ⟨oldp, holdp⟩ := hasKey_some hopk
          obtain ⟨nyv, hnyv⟩ := hasKey_some hy
          have hdet := storeInv_detach hs opid x now s.root_id
          by_cases hyo : opid = y
          all_goals by_cases hpcs : (childList s opid).erase x = []
          all_goals
            simp only [move_node, get_node, hl, if_neg hroot, hy, Bool.not_true,
              Bool.false_eq_true, if_false, hnc, hp, truthy, ne_eq, hope, not_false_eq_true,
              decide_True, if_true, Option.getD_some, hpcs, if_pos, if_false, holdp]
          · -- opid = y, pcs = []
            subst hyo
            simp only [if_pos hpcs, holdp] at hdet
            simp only [lookupA_setA_self]
            have hA := storeInv_attach hdet (lookupA_setA_self _ _ _) x now s.root_id
            have hxA : lookupA (setA (setA s.nodes opid
                { oldp with is_leaf := true, updated_at := now }) opid
                { { oldp with is_leaf := true, updated_at := now } with
                    is_leaf := false, updated_at := now }) x = some n := by
              rw [lookupA_setA_ne _ _ _ _ hxopid, lookupA_setA_ne _ _ _ _ hxopid]
              exact hl
            exact storeInv_update_entry hA hxA
              (show ({ n with parent_id := some opid, updated_at := now } : Node).is_leaf
                = n.is_leaf from rfl) s.root_id
          · -- opid = y, pcs ≠ []
            subst hyo
            simp only [if_neg hpcs] at hdet
            simp only [holdp, lookupA_setA_self]
            have hA := storeInv_attach hdet holdp x now s.root_id
            have hxA : lookupA (setA s.nodes opid
                { oldp with is_leaf := false, updated_at := now }) x = some n := by
              rw [lookupA_setA_ne _ _ _ _ hxopid]
              exact hl
            exact storeInv_update_entry hA hxA
              (show ({ n with parent_id := some opid, updated_at := now } : Node).is_leaf
                = n.is_leaf from rfl) s.root_id
          · -- opid ≠ y, pcs = []
            have hyo2 : y ≠ opid := Ne.symm hyo
            simp only [if_pos hpcs, holdp] at hdet
            simp only [lookupA_setA_ne _ _ _ _ hyo2, hnyv, lookupA_setA_self]
            have hA := storeInv_attach hdet
              (show lookupA (setA s.nodes opid
                  { oldp with is_leaf := true, updated_at := now }) y = some nyv from by
                rw [lookupA_setA_ne _ _ _ _ hyo2]; exact hnyv) x now s.root_id
            have hxA : lookupA (setA (setA s.nodes opid
                { oldp with is_leaf := true, updated_at := now }) y
                { nyv with is_leaf := false, updated_at := now }) x = some n := by
              rw [lookupA_setA_ne _ _ _ _ hxy, lookupA_setA_ne _ _ _ _ hxopid]
              exact hl
            exact storeInv_update_entry hA hxA
              (show ({ n with parent_id := some y, updated_at := now } : Node).is_leaf
                = n.is_leaf from rfl) s.root_id
          · -- opid ≠ y, pcs ≠ []
            have hyo2 : y ≠ opid := Ne.symm hyo
            simp only [if_neg hpcs] at hdet
            simp only [hnyv, lookupA_setA_self]
            have hA := storeInv_attach hdet hnyv x now s.root_id
            have hxA : lookupA (setA s.nodes y
                { nyv with is_leaf := false, updated_at := now }) x = some n := by
              rw [lookupA_setA_ne _ _ _ _ hxy]
              exact hl
            exact storeInv_update_entry hA hxA
              (show ({ n with parent_id := some y, updated_at := now } : Node).is_leaf
                = n.is_leaf from rfl) s.root_id
      · simpa [move_node, get_node, hl, hroot, hy] using hs

theorem expand_loop_storeInv (node_id : String) (now : Nat) :
    ∀ (cd : List (String × String × Metadata)) (s : TreeState), StoreInv s →
      StoreInv (expand_loop node_id now s cd).2 := by
  intro cd
  induction cd with
  | nil =>
    intro s hs
    simpa [expand_loop] using hs
  | cons c rest ih =>
    intro s hs
    obtain ⟨cid, desc, md⟩ := c
    have hcr := create_node_storeInv s hs cid desc (some node_id) md now
    cases hres : create_node s cid desc (some node_id) md now with
    | mk res s1 =>
      rw [hres] at hcr
      have hs1 : StoreInv s1 := hcr
      cases res with
      | error e => simpa [expand_loop, hres] using hs1
      | ok nd =>
        have := ih s1 hs1
        simpa [expand_loop, hres] using this

theorem expand_storeInv (s : TreeState) (hs : StoreInv s) (node_id : String)
    (cd : List (String × String × Metadata)) (now : Nat) :
    StoreInv (expand s node_id cd now).2 := by
  cases hl : lookupA s.nodes node_id with
  | none => simpa [expand, get_node, hl] using hs
  | some node =>
    by_cases hleaf : node.is_leaf = true
    · have hloop := expand_loop_storeInv node_id now cd s hs
      cases hres : expand_loop node_id now s cd with
      | mk res s1 =>
        rw [hres] at hloop
        have hs1 : StoreInv s1 := hloop
        cases res with
        | error e => simpa [expand, get_node, hl, hleaf, hres] using hs1
        | ok u =>
          cases hl2 : lookupA s1.nodes node_id with
          | none => simpa [expand, get_node, hl, hleaf, hres, hl2] using hs1
          | some n2 => simpa [expand, get_node, hl, hleaf, hres, hl2] using hs1
    · have hleaf2 : node.is_leaf = false := by
        cases hv : node.is_leaf
        · rfl
        · exact absurd hv hleaf
      simpa [expand, get_node, hl, hleaf2] using hs

theorem collapse_loop_storeInv (now : Nat) :
    ∀ (ids : List String) (s : TreeState), StoreInv s →
      StoreInv (collapse_loop now s ids).2 := by
  intro ids
  induction ids with
  | nil =>
    intro s hs
    simpa [collapse_loop] using hs
  | cons c cs ih =>
    intro s hs
    have hdz := delete_go_storeInv (s.nodes.length + 1) s c now hs
    cases hres : delete_node s c now with
    | mk res s1 =>
      rw [show delete_go (s.nodes.length + 1) s c now = (res, s1) from hres] at hdz
      have hs1 : StoreInv s1 := hdz
      cases res with
      | error e => simpa [collapse_loop, hres] using hs1
      | ok u =>
        have := ih s1 hs1
        simpa [collapse_loop, hres] using this

theorem collapse_storeInv (s : TreeState) (hs : StoreInv s) (node_id : String)
    (summary : Option String) (now : Nat) :
    StoreInv (collapse s node_id summary now).2 := by
  cases hl : lookupA s.nodes node_id with
  | none => simpa [collapse, get_node, hl] using hs
  | some node =>
    by_cases hleaf : node.is_leaf = true
    · simpa [collapse, get_node, hl, hleaf] using hs
    · have hleaf2 : node.is_leaf = false := by
        cases hv : node.is_leaf
        · rfl
        · exact absurd hv hleaf
      have hloop := collapse_loop_storeInv now
        (((childList s node_id).filterMap (fun c => lookupA s.nodes c)).map (fun nd => nd.id))
        s hs
      cases hres : collapse_loop now s
          (((childList s node_id).filterMap (fun c => lookupA s.nodes c)).map (fun nd => nd.id)) with
      | mk res s1 =>
        rw [hres] at hloop
        have hs1 : StoreInv s1 := hloop
        cases res with
        | error e =>
          simpa [collapse, get_node, get_children, hl, hleaf2, hres] using hs1
        | ok u =>
          cases summary with
          | some sm =>
            have := update_node_storeInv s1 hs1 node_id (some sm) none now
            simpa [collapse, get_node, get_children, hl, hleaf2, hres] using this
          | none =>
            cases hl2 : lookupA s1.nodes node_id with
            | none =>
              simpa [collapse, get_node, get_children, hl, hleaf2, hres, hl2] using hs1
            | some n2 =>
              simpa [collapse, get_node, get_children, hl, hleaf2, hres, hl2] using hs1

/-- C7.  Starting from any well-formed tree state, after every mutating
operation of the core — create, update, delete, move, expand, collapse —
every node remaining in the store has `is_leaf = true` exactly when its
children list is empty, whether the operation succeeds or fails. -/
theorem c7_is_leaf_iff_children_empty (s : TreeState) (h : WF s) :
    (∀ nid d pid md now, LeafInv (create_node s nid d pid md now).2) ∧
    (∀ nid d md now, LeafInv (update_node s nid d md now).2) ∧
    (∀ nid now, LeafInv (delete_node s nid now).2) ∧
    (∀ nid npid now, LeafInv (move_node s nid npid now).2) ∧
    (∀ nid cd now, LeafInv (expand s nid cd now).2) ∧
    (∀ nid sm now, LeafInv (collapse s nid sm now).2) := by
  have hs := storeInv_of_wf h
  refine ⟨?_, ?_, ?_, ?_, ?_, ?_⟩
  · intro nid d pid md now
    exact (create_node_storeInv s hs nid d pid md now).2.2
  · intro nid d md now
    exact (update_node_storeInv s hs nid d md now).2.2
  · intro nid now
    exact (delete_go_storeInv _ s nid now hs).2.2
  · intro nid npid now
    exact (move_node_storeInv s h nid npid now).2.2
  · intro nid cd now
    exact (expand_storeInv s hs nid cd now).2.2
  · intro nid sm now
    exact (collapse_storeInv s hs nid sm now).2.2

/-- Witness for C7 on the sample tree: a create, a recursive delete and a
move all keep the leaf flags coherent. -/
theorem c7_witness :
    WF sampleState ∧
    LeafInv (create_node sampleState "c" "C" (some "b1") [] 6).2 ∧
    LeafInv (delete_node sampleState "a" 6).2 ∧
    LeafInv (move_node sampleState "b1" "a1" 6).2 := by
  have h : WF sampleState := (by decide : wfB sampleState = true)
  obtain ⟨h1, _, h3, h4, _, _⟩ := c7_is_leaf_iff_children_empty sampleState h
  exact ⟨h, h1 "c" "C" (some "b1") [] 6, h3 "a" 6, h4 "b1" "a1" 6⟩

/-- C2 (amended).  For an existing non-root node `x` and an existing node
`y`, `move(x, y)` fails with `CircularReference` exactly for `y` in the
*descendant*-or-self set of `x` (not the ancestor-or-self set the claim
states): for `y` in the subtree of `x` the move is rejected, while for every
other existing `y` — including `x`'s current parent and all other ancestors —
it succeeds, reparenting `x` under `y`, storing the updated snapshot,
marking `y` a branch, and leaving every node's `is_leaf` equal to the
emptiness of its children list. -/
theorem c2_move_circular_iff_descendant_or_self (s : TreeState) (x y : String) (n : Node)
    (now : Nat) (h : WF s) (hl : lookupA s.nodes x = some n)
    (hroot : ¬ s.root_id = some x) (hy : hasKey s.nodes y = true) :
    (InSubtree s x y →
      ∃ msg, (move_node s x y now).1 = .error (.circularReference msg)) ∧
    (¬ InSubtree s x y →
      (move_node s x y now).1 = .ok { n with parent_id := some y, updated_at := now } ∧
      lookupA (move_node s x y now).2.nodes x =
        some { n with parent_id := some y, updated_at := now } ∧
      (∃ ny, lookupA (move_node s x y now).2.nodes y = some ny ∧ ny.is_leaf = false) ∧
      LeafInv (move_node s x y now).2) := by
  constructor
  · intro hsub
    have hc : would_create_cycle s x y = true := (would_create_cycle_iff h hy).mpr hsub
    rw [move_node_cycle_err hl hroot hy hc now]
    exact ⟨_, rfl⟩
  · intro hnsub
    have hnc : would_create_cycle s x y = false := by
      cases hcyc : would_create_cycle s x y
      · rfl
      · exact absurd ((would_create_cycle_iff h hy).mp hcyc) hnsub
    obtain ⟨h1, h2, h3, _, _⟩ := move_node_ok h hl hroot hy hnc now
    exact ⟨h1, h2, h3, (move_node_storeInv s h x y now).2.2⟩

/-- C2 counterexample: in the chain `r → a → b`, the node `a` is the parent —
hence an ancestor — of `b`, yet `move(b, a)` succeeds instead of failing with
`CircularReference` as the claim (ancestor-or-self set) demands. -/
theorem c2_counterexample_move_to_parent_succeeds :
    lookupA chainState.nodes "b" = some ⟨"b", some "a", "B", [], true, 2, 2⟩ ∧
    (move_node chainState "b" "a" 5).1 = .ok ⟨"b", some "a", "B", [], true, 2, 5⟩ := by
  exact ⟨by decide, by decide⟩

/-- Witness for C2: moving `b1` under the unrelated leaf `a1` in the sample
tree succeeds with all the advertised effects. -/
theorem c2_witness :
    (move_node sampleState "b1" "a1" 11).1 =
      .ok ⟨"b1", some "a1", "B1", [], true, 5, 11⟩ ∧
    LeafInv (move_node sampleState "b1" "a1" 11).2 := by
  have h : WF sampleState := (by decide : wfB sampleState = true)
  have hl : lookupA sampleState.nodes "b1" = some ⟨"b1", some "b", "B1", [], true, 5, 5⟩ := by
    decide
  have hnc : would_create_cycle sampleState "b1" "a1" = false := by decide
  have hnsub : ¬ InSubtree sampleState "b1" "a1" := by
    intro hsub
    have := (would_create_cycle_iff h (by decide)).mpr hsub
    rw [this] at hnc
    cases hnc
  obtain ⟨h1, _, _, h4⟩ :=
    (c2_move_circular_iff_descendant_or_self sampleState "b1" "a1"
      ⟨"b1", some "b", "B1", [], true, 5, 5⟩ 11 h hl (by decide) (by decide)).2 hnsub
  exact ⟨h1, h4⟩

theorem next_after_of_find_index_none {sibs : List Node} {x : String}
    (h : find_index sibs x = none) :
    next_after (sibs.map (fun nd => nd.id)) x = none := by
  induction sibs with
  | nil => rfl
  | cons nd rest ih =>
    simp only [find_index] at h
    by_cases hx : nd.id = x
    · rw [if_pos hx] at h
      cases h
    · rw [if_neg hx] at h
      simp only [List.map_cons, next_after, if_neg hx]
      cases hfr : find_index rest x with
      | none => exact ih hfr
      | some j => rw [hfr] at h; cases h

theorem next_after_of_find_index_some {sibs : List Node} {x : String} {i : Nat}
    (h : find_index sibs x = some i) (hlt : i + 1 < sibs.length) :
    next_after (sibs.map (fun nd => nd.id)) x = (sibs.get? (i + 1)).map (fun nd => nd.id) := by
  induction sibs generalizing i with
  | nil => cases h
  | cons nd rest ih =>
    simp only [find_index] at h
    by_cases hx : nd.id = x
    · rw [if_pos hx] at h
      injection h with h
      subst h
      simp only [List.map_cons, next_after, if_pos hx]
      cases rest with
      | nil => simp at hlt
      | cons nd2 rest2 => rfl
    · rw [if_neg hx] at h
      cases hfr : find_index rest x with
      | none => rw [hfr] at h; cases h
      | some j =>
        rw [hfr] at h
        simp only [Option.map_some'] at h
        injection h with h
        subst h
        simp only [List.map_cons, next_after, if_neg hx]
        simp only [List.length_cons] at hlt
        exact ih hfr (by omega)

theorem next_after_of_find_index_last {sibs : List Node} {x : String} {i : Nat}
    (h : find_index sibs x = some i) (hlt : ¬ i + 1 < sibs.length) :
    next_after (sibs.map (fun nd => nd.id)) x = none := by
  induction sibs generalizing i with
  | nil => cases h
  | cons nd rest ih =>
    simp only [find_index] at h
    by_cases hx : nd.id = x
    · rw [if_pos hx] at h
      injection h with h
      subst h
      simp only [List.length_cons] at hlt
      have : rest = [] := by
        cases rest with
        | nil => rfl
        | cons a b => simp at hlt
      subst this
      simp only [List.map_cons, List.map_nil, next_after]
      rw [if_pos hx]
      rfl
    · rw [if_neg hx] at h
      cases hfr : find_index rest x with
      | none => rw [hfr] at h; cases h
      | some j =>
        rw [hfr] at h
        simp only [Option.map_some'] at h
        injection h with h
        subst h
        simp only [List.map_cons, next_after, if_neg hx]
        simp only [List.length_cons] at hlt
        exact ih hfr (by omega)

theorem next_dfs_up_spec {s : TreeState} (h : WF s) :
    ∀ {k : String} {d : Nat}, UpPath s k d → ∀ {nk : Node}, lookupA s.nodes k = some nk →
    ∀ {fuel : Nat}, d < fuel →
    ∃ r, next_dfs_up s fuel nk = .ok r ∧
      r.map (fun nd => nd.id) = spec_anc_walk s fuel k := by
  intro k d hup
  induction hup with
  | root k n hl hp =>
    intro nk hnk fuel hf
    rw [hl] at hnk
    injection hnk with hnk
    subst hnk
    obtain ⟨f, rfl⟩ : ∃ f, fuel = f + 1 := ⟨fuel - 1, by omega⟩
    refine ⟨none, ?_, ?_⟩
    · simp [next_dfs_up, hp]
    · simp [spec_anc_walk, parent_of, hl, hp]
  | step k n p d hl hp hupp ih =>
    intro nk hnk fuel hf
    rw [hl] at hnk
    injection hnk with hnk
    subst hnk
    obtain ⟨f, rfl⟩ : ∃ f, fuel = f + 1 := ⟨fuel - 1, by omega⟩
    have hid : n.id = k := wf_lookup_id h hl
    obtain ⟨pnode, hpn⟩ := hasKey_some (wf_parent_hasKey h hl hp)
    have hpid : pnode.id = p := wf_lookup_id h hpn
    have hgp : get_parent s n.id = .ok (some pnode) := by
      rw [hid]
      simp [get_parent, get_node, hl, hp, hpn]
    obtain ⟨psibs, hgs, hmap, _⟩ := get_siblings_ok h hpn
    have hgs2 : get_siblings s pnode.id = .ok psibs := by
      rw [hpid]
      exact hgs
    have hsib : spec_next_sibling s p = next_after (psibs.map (fun nd => nd.id)) p := by
      unfold spec_next_sibling parent_of
      rw [hpn]
      simp only [Option.some_bind]
      cases hpp : pnode.parent_id with
      | none =>
        rw [hpp] at hmap
        have hm2 : List.map (fun nd => nd.id) psibs = [p] := hmap
        rw [hm2]
        simp [next_after]
      | some gp =>
        rw [hpp] at hmap
        have hm2 : List.map (fun nd => nd.id) psibs = childList s gp := hmap
        rw [hm2]
    have hfi2 : find_index psibs pnode.id = find_index psibs p := by rw [hpid]
    have hcode : next_dfs_up s (f + 1) n =
        (match find_index psibs pnode.id with
         | some i =>
           if i + 1 < psibs.length then .ok (psibs.get? (i + 1))
           else next_dfs_up s f pnode
         | none => next_dfs_up s f pnode) := by
      simp only [next_dfs_up, hp, hgp, hgs2]
    have hspec : spec_anc_walk s (f + 1) k =
        (match spec_next_sibling s p with
         | some t => some t
         | none => spec_anc_walk s f p) := by
      simp only [spec_anc_walk]
      unfold parent_of
      rw [hl]
      simp only [Option.some_bind]
      rw [hp]
    cases hfi : find_index psibs p with
    | none =>
      have hnone : spec_next_sibling s p = none := by
        rw [hsib, next_after_of_find_index_none hfi]
      obtain ⟨r, hr, hrm⟩ := ih hpn (show d < f by omega)
      refine ⟨r, ?_, ?_⟩
      · rw [hcode, hfi2, hfi]
        exact hr
      · rw [hspec, hnone, hrm]
    | some i =>
      by_cases hlt : i + 1 < psibs.length
      · have hget : psibs.get? (i + 1) = some (psibs.get ⟨i + 1, hlt⟩) :=
          List.get?_eq_get hlt
        have hsome : spec_next_sibling s p = some ((psibs.get ⟨i + 1, hlt⟩).id) := by
          rw [hsib, next_after_of_find_index_some hfi hlt, hget]
          rfl
        refine ⟨psibs.get? (i + 1), ?_, ?_⟩
        · rw [hcode, hfi2, hfi]
          show (if i + 1 < psibs.length then (Except.ok (psibs.get? (i + 1)) :
            Except TreeError (Option Node)) else next_dfs_up s f pnode) =
            Except.ok (psibs.get? (i + 1))
          rw [if_pos hlt]
        · rw [hspec, hsome, hget]
          rfl
      · have hnone : spec_next_sibling s p = none := by
          rw [hsib, next_after_of_find_index_last hfi hlt]
        obtain ⟨r, hr, hrm⟩ := ih hpn (show d < f by omega)
        refine ⟨r, ?_, ?_⟩
        · rw [hcode, hfi2, hfi]
          show (if i + 1 < psibs.length then (Except.ok (psibs.get? (i + 1)) :
            Except TreeError (Option Node)) else next_dfs_up s f pnode) = Except.ok r
          rw [if_neg hlt]
          exact hr
        · rw [hspec, hnone, hrm]

/-- C6.  For every existing node, `compute_next_dfs` succeeds and returns
exactly what the claim describes (`next_dfs_spec`): the first child in
insertion order if there is one; else the next sibling in the parent's child
order if there is one; else the result of walking up through the ancestors,
taking the first ancestor's next sibling found, and the absent marker when
the walk reaches the root without a hit. -/
theorem c6_next_dfs_preference_order (s : TreeState) (x : String) (n : Node)
    (h : WF s) (hl : lookupA s.nodes x = some n) :
    ∃ r, compute_next_dfs s x = .ok r ∧
      r.map (fun nd => nd.id) = next_dfs_spec s x := by
  have hid : n.id = x := wf_lookup_id h hl
  obtain ⟨cl, hgc, hclmap, _⟩ :=
    get_children_ok h (show hasKey s.nodes x = true by simp [hasKey, hl])
  obtain ⟨hd, hdup⟩ := wf_upPath h (show hasKey s.nodes x = true by simp [hasKey, hl])
  cases hcl : childList s x with
  | cons c cs =>
    rw [hcl] at hclmap
    obtain ⟨nd0, rest0, rfl⟩ : ∃ nd0 rest0, cl = nd0 :: rest0 := by
      cases cl with
      | nil => cases hclmap
      | cons a b => exact ⟨a, b, rfl⟩
    simp only [List.map_cons] at hclmap
    refine ⟨some nd0, ?_, ?_⟩
    · simp [compute_next_dfs, get_node, hl, hgc]
    · rw [next_dfs_spec, hcl]
      simp only [Option.map_some']
      injection hclmap with h1 _
      rw [h1]
  | nil =>
    rw [hcl] at hclmap
    have hclnil : cl = [] := by
      cases cl with
      | nil => rfl
      | cons a b => cases hclmap
    subst hclnil
    cases hp : n.parent_id with
    | none =>
      obtain ⟨r, hr, hrm⟩ := next_dfs_up_spec h hdup.2 hl (show hd < s.nodes.length + 1 by omega)
      refine ⟨r, ?_, ?_⟩
      · simp only [compute_next_dfs, get_node, hl, hgc, List.head?, hp]
        exact hr
      · rw [next_dfs_spec, hcl]
        have hnsib : spec_next_sibling s x = none := by
          unfold spec_next_sibling parent_of
          rw [hl]
          simp only [Option.some_bind]
          rw [hp]
        rw [hnsib, hrm]
    | some p =>
      obtain ⟨sibs, hgs, hsibmap, _⟩ := get_siblings_ok h hl
      rw [hp] at hsibmap
      have hsib : spec_next_sibling s x = next_after (sibs.map (fun nd => nd.id)) x := by
        unfold spec_next_sibling parent_of
        rw [hl]
        simp only [Option.some_bind]
        rw [hp, hsibmap]
      have hfix : find_index sibs x = find_index sibs n.id := by rw [hid]
      cases hfi : find_index sibs x with
      | none =>
        have hnone : spec_next_sibling s x = none := by
          rw [hsib, next_after_of_find_index_none hfi]
        obtain ⟨r, hr, hrm⟩ :=
          next_dfs_up_spec h hdup.2 hl (show hd < s.nodes.length + 1 by omega)
        refine ⟨r, ?_, ?_⟩
        · simp only [compute_next_dfs, get_node, hl, hgc, List.head?, hp, hgs, hfi]
          exact hr
        · rw [next_dfs_spec, hcl, hnone, hrm]
      | some i =>
        by_cases hlt : i + 1 < sibs.length
        · have hget : sibs.get? (i + 1) = some (sibs.get ⟨i + 1, hlt⟩) :=
            List.get?_eq_get hlt
          have hsome : spec_next_sibling s x = some ((sibs.get ⟨i + 1, hlt⟩).id) := by
            rw [hsib, next_after_of_find_index_some hfi hlt, hget]
            rfl
          refine ⟨sibs.get? (i + 1), ?_, ?_⟩
          · simp only [compute_next_dfs, get_node, hl, hgc, List.head?, hp, hgs, hfi,
              if_pos hlt]
          · rw [next_dfs_spec, hcl, hsome, hget]
            rfl
        · have hnone : spec_next_sibling s x = none := by
            rw [hsib, next_after_of_find_index_last hfi hlt]
          obtain ⟨r, hr, hrm⟩ :=
            next_dfs_up_spec h hdup.2 hl (show hd < s.nodes.length + 1 by omega)
          refine ⟨r, ?_, ?_⟩
          · simp only [compute_next_dfs, get_node, hl, hgc, List.head?, hp, hgs, hfi,
              if_neg hlt]
            exact hr
          · rw [next_dfs_spec, hcl, hnone, hrm]

/-- Witness for C6 on the sample tree: the successor of `a2` is computed and
matches the claim's preference order (case (c): the ancestor walk hits `b`). -/
theorem c6_witness :
    ∃ r, compute_next_dfs sampleState "a2" = .ok r ∧
      r.map (fun nd => nd.id) = next_dfs_spec sampleState "a2" := by
  have h : WF sampleState := (by decide : wfB sampleState = true)
  exact c6_next_dfs_preference_order sampleState "a2"
    ⟨"a2", some "a", "A2", [], true, 3, 3⟩ h (by decide)

theorem find_index_mem {l : List Node} {x : String}
    (hx : x ∈ l.map (fun nd => nd.id)) :
    ∃ i m, find_index l x = some i ∧ i < l.length ∧ l.get? i = some m ∧ m.id = x := by
  induction l with
  | nil => simp at hx
  | cons nd rest ih =>
    by_cases hnd : nd.id = x
    · exact ⟨0, nd, by simp [find_index, hnd], by simp, rfl, hnd⟩
    · have hx2 : x ∈ rest.map (fun nd => nd.id) := by
        simp only [List.map_cons, List.mem_cons] at hx
        rcases hx with hx | hx
        · exact absurd hx.symm hnd
        · exact hx
      obtain ⟨i, m, hfi, hlt, hget, hid⟩ := ih hx2
      refine ⟨i + 1, m, ?_, by simpa using hlt, hget, hid⟩
      simp [find_index, hnd, hfi]

theorem breadcrumbs_go_spec {s : TreeState} (h : WF s) :
    ∀ {k : String} {d : Nat}, UpPath s k d → ∀ {n : Node}, lookupA s.nodes k = some n →
    ∀ {fuel : Nat}, d < fuel → ∀ acc,
    ∃ tr, breadcrumbs_go s fuel n.parent_id acc = .ok (tr ++ acc) ∧
      Trail s k tr ∧ tr.length = d := by
  intro k d hup
  induction hup with
  | root k n0 hl hp =>
    intro n hn fuel hf acc
    rw [hl] at hn
    injection hn with hn
    subst hn
    obtain ⟨f, rfl⟩ : ∃ f, fuel = f + 1 := ⟨fuel - 1, by omega⟩
    refine ⟨[], ?_, .root k n0 hl hp, rfl⟩
    rw [hp]
    rfl
  | step k n0 p d hl hp hupp ih =>
    intro n hn fuel hf acc
    rw [hl] at hn
    injection hn with hn
    subst hn
    obtain ⟨f, rfl⟩ : ∃ f, fuel = f + 1 := ⟨fuel - 1, by omega⟩
    obtain ⟨pn, hpn⟩ := hasKey_some (wf_parent_hasKey h hl hp)
    obtain ⟨tr1, hgo, htr, hlen⟩ :=
      ih hpn (show d < f by omega) (⟨pn.id, pn.description⟩ :: acc)
    refine ⟨tr1 ++ [⟨pn.id, pn.description⟩], ?_,
      .step k n0 p pn tr1 hl hp hpn htr, by simp [hlen]⟩
    rw [hp]
    have hstep : breadcrumbs_go s (f + 1) (some p) acc =
        breadcrumbs_go s f pn.parent_id (⟨pn.id, pn.description⟩ :: acc) := by
      simp [breadcrumbs_go, get_node, hpn]
    rw [hstep, hgo]
    simp

/-- C9.  For every existing node, `build_context` succeeds; the breadcrumbs
are exactly the records of the ancestors from the root down to (but
excluding) the node (`Trail`), the depth equals the breadcrumb count and the
number of ancestors (`UpPath`), and for non-root nodes the sibling position
is a valid zero-based index into the sibling list of length `total_siblings`
whose entry carries the node's own id. -/
theorem c9_build_context (s : TreeState) (x : String) (n : Node)
    (h : WF s) (hl : lookupA s.nodes x = some n) :
    ∃ ctx, build_context s x = .ok ctx ∧
      Trail s x ctx.breadcrumbs ∧
      ctx.depth = ctx.breadcrumbs.length ∧
      (∃ d, UpPath s x d ∧ ctx.depth = d) ∧
      (n.parent_id ≠ none →
        ∃ sibs, get_siblings s x = .ok sibs ∧
          sibs.length = ctx.total_siblings ∧
          ctx.sibling_position < ctx.total_siblings ∧
          ∃ m, sibs.get? ctx.sibling_position = some m ∧ m.id = x) := by
  have hkey : hasKey s.nodes x = true := by simp [hasKey, hl]
  obtain ⟨d, hdlt, hdup⟩ := wf_upPath h hkey
  obtain ⟨tr, hgo, htr, hlen⟩ :=
    breadcrumbs_go_spec h hdup hl (show d < s.nodes.length + 1 by omega) []
  rw [List.append_nil] at hgo
  obtain ⟨sibs, hgs, hsibmap, _⟩ := get_siblings_ok h hl
  obtain ⟨children, hgc, _, _⟩ := get_children_ok h hkey
  have hxmem : x ∈ sibs.map (fun nd => nd.id) := by
    rw [hsibmap]
    cases hp : n.parent_id with
    | none => simp
    | some p => exact wf_parent_child h hl hp
  obtain ⟨i, m, hfi, hilt, hget, hmid⟩ := find_index_mem hxmem
  refine ⟨⟨tr.length, i, sibs.length, !n.is_leaf, children.length, tr⟩, ?_, htr, rfl,
    ⟨d, hdup, hlen⟩, ?_⟩
  · simp only [build_context, get_node, hl, compute_breadcrumbs, hgo, hgs, hgc, hfi]
  · intro _
    exact ⟨sibs, hgs, rfl, hilt, m, hget, hmid⟩

/-- Witness for C9: the context of `a1` in the sample tree. -/
theorem c9_witness :
    ∃ ctx, build_context sampleState "a1" = .ok ctx ∧
      Trail sampleState "a1" ctx.breadcrumbs ∧
      ctx.depth = ctx.breadcrumbs.length ∧
      (∃ d, UpPath sampleState "a1" d ∧ ctx.depth = d) ∧
      ((⟨"a1", some "a", "A1", [], true, 2, 2⟩ : Node).parent_id ≠ none →
        ∃ sibs, get_siblings sampleState "a1" = .ok sibs ∧
          sibs.length = ctx.total_siblings ∧
          ctx.sibling_position < ctx.total_siblings ∧
          ∃ m, sibs.get? ctx.sibling_position = some m ∧ m.id = "a1") := by
  have h : WF sampleState := (by decide : wfB sampleState = true)
  exact c9_build_context sampleState "a1" ⟨"a1", some "a", "A1", [], true, 2, 2⟩ h (by decide)

/-- Precise effect of `delete_node` on a childless non-root node `c` whose
parent is `L`: the call succeeds, removes exactly `c` from both indices,
removes `c` from `L`'s children order, flips `L` to a leaf exactly when that
list becomes empty, and touches nothing else. -/
theorem delete_leaf_effect (t : TreeState) (c L : String) (nc nL : Node)
    (lcs : List String) (now : Nat)
    (hnd : (keysA t.nodes).Nodup) (hke : KeysEq t)
    (hc : lookupA t.nodes c = some nc)
    (hcc : childList t c = [])
    (hroot : ¬ t.root_id = some c)
    (hpar : nc.parent_id = some L) (hLne : L ≠ "") (hcL : ¬ c = L)
    (hL : lookupA t.nodes L = some nL)
    (hlcs : lookupA t.children L = some lcs) :
    ∃ t', delete_node t c now = (.ok (), t') ∧
      lookupA t'.nodes c = none ∧
      lookupA t'.nodes L =
        some (if lcs.erase c = [] then { nL with is_leaf := true, updated_at := now } else nL) ∧
      childList t' L = lcs.erase c ∧
      (∀ k, ¬ k = c → ¬ k = L → lookupA t'.nodes k = lookupA t.nodes k) ∧
      (∀ k, ¬ k = c → ¬ k = L → childList t' k = childList t k) ∧
      node_count t' + 1 = node_count t ∧
      t'.root_id = t.root_id ∧
      (keysA t'.nodes).Nodup ∧ KeysEq t' := by
  have hLc : ¬ L = c := fun hh => hcL hh.symm
  have htr : truthy nc.parent_id = true := by simp [truthy, hpar, hLne]
  have htL : truthy (some L) = true := by simp [truthy, hLne]
  have hchild : childList t L = lcs := by simp [childList, hlcs]
  have hLmem : L ∈ keysA t.nodes := (hasKey_eq_mem_keysA _ _).mp (by simp [hasKey, hL])
  have hcmem : c ∈ keysA t.nodes := (hasKey_eq_mem_keysA _ _).mp (by simp [hasKey, hc])
  by_cases hpcs : lcs.erase c = []
  · have hdel : delete_node t c now = (.ok (),
        ⟨eraseA (setA t.nodes L { nL with is_leaf := true, updated_at := now }) c,
         eraseA (modifyA t.children L (fun l => l.erase c)) c, t.root_id⟩) := by
      show delete_go (t.nodes.length + 1) t c now = _
      simp only [delete_go, get_node, hc, if_neg hroot, hcc, delete_list, htr, htL, if_true,
        hpar, Option.getD_some, hchild, hpcs, if_pos, hL]
    refine ⟨_, hdel, ?_, ?_, ?_, ?_, ?_, ?_, ?_, ?_, ?_⟩
    · rw [lookupA_eraseA_self_nodup]
      rw [keysA_setA_mem _ _ _ hLmem]
      exact hnd
    · rw [lookupA_eraseA_ne _ _ _ hLc, lookupA_setA_self, if_pos hpcs]
    · rw [childList]
      simp only
      rw [lookupA_eraseA_ne _ _ _ hLc, lookupA_modifyA_self, hlcs]
      simp [hpcs]
    · intro k hk hkL
      simp only
      rw [lookupA_eraseA_ne _ _ _ hk, lookupA_setA_ne _ _ _ _ hkL]
    · intro k hk hkL
      rw [childList, childList]
      simp only
      rw [lookupA_eraseA_ne _ _ _ hk, lookupA_modifyA_ne _ _ _ _ hkL]
    · show (eraseA (setA t.nodes L _) c).length + 1 = t.nodes.length
      have h1 : c ∈ keysA (setA t.nodes L { nL with is_leaf := true, updated_at := now }) := by
        rw [keysA_setA_mem _ _ _ hLmem]
        exact hcmem
      have h2 := length_eraseA_mem _ _ h1
      rw [length_setA_mem _ _ _ hLmem] at h2
      exact h2
    · rfl
    · rw [keysA_eraseA, keysA_setA_mem _ _ _ hLmem]
      exact hnd.erase _
    · unfold KeysEq
      simp only
      rw [keysA_eraseA, keysA_eraseA, keysA_modifyA, keysA_setA_mem _ _ _ hLmem, hke]
  · have hdel : delete_node t c now = (.ok (),
        ⟨eraseA t.nodes c,
         eraseA (modifyA t.children L (fun l => l.erase c)) c, t.root_id⟩) := by
      show delete_go (t.nodes.length + 1) t c now = _
      simp only [delete_go, get_node, hc, if_neg hroot, hcc, delete_list, htr, htL, if_true,
        hpar, Option.getD_some, hchild, hpcs, if_neg, if_false]
    refine ⟨_, hdel, ?_, ?_, ?_, ?_, ?_, ?_, ?_, ?_, ?_⟩
    · exact lookupA_eraseA_self_nodup _ _ hnd
    · rw [lookupA_eraseA_ne _ _ _ hLc, if_neg hpcs]
      exact hL
    · rw [childList]
      simp only
      rw [lookupA_eraseA_ne _ _ _ hLc, lookupA_modifyA_self, hlcs]
      rfl
    · intro k hk hkL
      simp only
      rw [lookupA_eraseA_ne _ _ _ hk]
    · intro k hk hkL
      rw [childList, childList]
      simp only
      rw [lookupA_eraseA_ne _ _ _ hk, lookupA_modifyA_ne _ _ _ _ hkL]
    · exact length_eraseA_mem _ _ hcmem
    · rfl
    · rw [keysA_eraseA]
      exact hnd.erase _
    · unfold KeysEq
      simp only
      rw [keysA_eraseA, keysA_eraseA, keysA_modifyA, hke]

/-- Effect of the `collapse` deletion loop on a parent `L` whose remaining
children `rem` are exactly the childless non-root nodes listed under it: the
loop succeeds, removes every listed node from the store, flips `L` to a leaf
exactly when the list was nonempty, and leaves every other node untouched. -/
theorem collapse_loop_effect (L : String) (now : Nat) (rem : List String) :
    ∀ (t : TreeState) (nL : Node),
    (keysA t.nodes).Nodup → KeysEq t →
    lookupA t.nodes L = some nL → lookupA t.children L = some rem →
    rem.Nodup → L ≠ "" →
    (∀ c ∈ rem, ∃ nc, lookupA t.nodes c = some nc ∧ nc.parent_id = some L ∧
        childList t c = [] ∧ ¬ t.root_id = some c ∧ ¬ c = L) →
    ∃ tf, collapse_loop now t rem = (.ok (), tf) ∧
      lookupA tf.nodes L =
        some (if rem = [] then nL else { nL with is_leaf := true, updated_at := now }) ∧
      (∀ c ∈ rem, lookupA tf.nodes c = none) ∧
      (∀ k, ¬ k ∈ rem → ¬ k = L → lookupA tf.nodes k = lookupA t.nodes k) ∧
      node_count tf + rem.length = node_count t ∧
      tf.root_id = t.root_id ∧
      (keysA tf.nodes).Nodup ∧ KeysEq tf := by
  induction rem with
  | nil =>
    intro t nL hnd hke hL _ _ _ _
    exact ⟨t, rfl, by simpa using hL, by simp, fun k _ _ => rfl, rfl, rfl, hnd, hke⟩
  | cons c cs ih =>
    intro t nL hnd hke hL hrem hnodup hLne hch
    obtain ⟨nc, hc, hpar, hcc, hroot, hcL⟩ := hch c (by simp)
    have hcs_nodup : cs.Nodup := (List.nodup_cons.mp hnodup).2
    have hc_not_cs : ¬ c ∈ cs := (List.nodup_cons.mp hnodup).1
    have herase : (c :: cs).erase c = cs := by simp [List.erase_cons]
    obtain ⟨t', hdel, hct', hLt', hchLt', hpres, hprescl, hcount, hroott', hnd', hke'⟩ :=
      delete_leaf_effect t c L nc nL (c :: cs) now hnd hke hc hcc hroot hpar hLne hcL hL hrem
    rw [herase] at hLt' hchLt'
    have hLmem' : L ∈ keysA t'.children := by
      rw [hke']
      exact (lookupA_isSome_iff_mem_keysA _ _).mp (by simp [hLt'])
    have hrem' : lookupA t'.children L = some cs := by
      cases hl' : lookupA t'.children L with
      | none =>
        exact absurd ((lookupA_isSome_iff_mem_keysA _ _).mpr hLmem') (by simp [hl'])
      | some l =>
        have hcl : childList t' L = l := by simp [childList, hl']
        rw [hchLt'] at hcl
        rw [hcl]
    have hch' : ∀ c' ∈ cs, ∃ nc', lookupA t'.nodes c' = some nc' ∧ nc'.parent_id = some L ∧
        childList t' c' = [] ∧ ¬ t'.root_id = some c' ∧ ¬ c' = L := by
      intro c' hc'
      obtain ⟨nc', hl', hp', hcl', hr', hne'⟩ := hch c' (by simp [hc'])
      have hne_c : ¬ c' = c := fun hh => hc_not_cs (hh ▸ hc')
      refine ⟨nc', ?_, hp', ?_, ?_, hne'⟩
      · rw [hpres c' hne_c hne']
        exact hl'
      · rw [hprescl c' hne_c hne']
        exact hcl'
      · rw [hroott']
        exact hr'
    obtain ⟨tf, hloop, hLf, hrm, hpresf, hcountf, hrootf, hndf, hkef⟩ :=
      ih t' _ hnd' hke' hLt' hrem' hcs_nodup hLne hch'
    have hLgoal : lookupA tf.nodes L = some { nL with is_leaf := true, updated_at := now } := by
      by_cases hcs : cs = [] <;> simp [hcs] at hLf <;> exact hLf
    refine ⟨tf, ?_, ?_, ?_, ?_, ?_, ?_, hndf, hkef⟩
    · simp only [collapse_loop, hdel]
      exact hloop
    · simpa using hLgoal
    · intro c0 hc0
      rcases List.mem_cons.mp hc0 with h0 | h0
      · subst h0
        rw [hpresf c0 hc_not_cs hcL]
        exact hct'
      · exact hrm c0 h0
    · intro k hk hkL
      have hkc : ¬ k = c := fun hh => hk (by simp [hh])
      have hkcs : ¬ k ∈ cs := fun hh => hk (by simp [hh])
      rw [hpresf k hkcs hkL, hpres k hkc hkL]
    · simp only [List.length_cons]
      omega
    · rw [hrootf, hroott']

/-- Effect of the `expand` creation loop under a stored parent `L`: with
pairwise-distinct fresh child ids the loop succeeds, appends the new ids to
`L`'s children order, stores each new node as a childless leaf pointing at
`L`, flips `L` off the leaf flag exactly when the list was nonempty, and
leaves every other node untouched. -/
theorem expand_loop_effect (L : String) (now : Nat)
    (cd : List (String × String × Metadata)) :
    ∀ (s : TreeState) (nL : Node) (lcs0 : List String),
    (keysA s.nodes).Nodup → KeysEq s →
    lookupA s.nodes L = some nL → lookupA s.children L = some lcs0 →
    (cd.map (fun p => p.1)).Nodup →
    (∀ p ∈ cd, ¬ p.1 ∈ keysA s.nodes) →
    ∃ sf, expand_loop L now s cd = (.ok (), sf) ∧
      lookupA sf.nodes L =
        some (if cd = [] then nL else { nL with is_leaf := false, updated_at := now }) ∧
      lookupA sf.children L = some (lcs0 ++ cd.map (fun p => p.1)) ∧
      (∀ p ∈ cd, ∃ np, lookupA sf.nodes p.1 = some np ∧ np.id = p.1 ∧
          np.parent_id = some L ∧ lookupA sf.children p.1 = some []) ∧
      (∀ k, ¬ k = L → ¬ k ∈ cd.map (fun p => p.1) →
        lookupA sf.nodes k = lookupA s.nodes k) ∧
      (∀ k, ¬ k = L → ¬ k ∈ cd.map (fun p => p.1) →
        lookupA sf.children k = lookupA s.children k) ∧
      node_count sf = node_count s + cd.length ∧
      sf.root_id = s.root_id ∧
      (keysA sf.nodes).Nodup ∧ KeysEq sf ∧
      keysA sf.nodes = keysA s.nodes ++ cd.map (fun p => p.1) := by
  induction cd with
  | nil =>
    intro s nL lcs0 hnd hke hL hlcs _ _
    exact ⟨s, rfl, by simpa using hL, by simpa using hlcs, by simp, fun k _ _ => rfl,
      fun k _ _ => rfl, by simp [node_count], rfl, hnd, hke, by simp⟩
  | cons p cd ih =>
    intro s nL lcs0 hnd hke hL hlcs hnodup hfresh
    obtain ⟨cid, desc, md⟩ := p
    have hfresh0 : ¬ cid ∈ keysA s.nodes := hfresh (cid, desc, md) (by simp)
    have hnodup' : (cid :: cd.map (fun p => p.1)).Nodup := by
      simpa only [List.map_cons] using hnodup
    have hcid_not_map : ¬ cid ∈ cd.map (fun p => p.1) := (List.nodup_cons.mp hnodup').1
    have hmap_nodup : (cd.map (fun p => p.1)).Nodup := (List.nodup_cons.mp hnodup').2
    have hLmem : L ∈ keysA s.nodes :=
      (lookupA_isSome_iff_mem_keysA _ _).mp (by simp [hL])
    have hcidL : ¬ cid = L := fun hh => hfresh0 (by rw [hh]; exact hLmem)
    have hLcid : L ≠ cid := fun hh => hcidL hh.symm
    have h1 : hasKey s.nodes cid = false := by
      simp [hasKey, lookupA_eq_none_of_not_mem hfresh0]
    have h3 : hasKey s.nodes L = true := by simp [hasKey, hL]
    have h2 : lookupA (setA s.nodes cid ⟨cid, some L, desc, md, true, now, now⟩) L =
        some nL := by
      rw [lookupA_setA_ne _ _ _ _ hLcid]
      exact hL
    have hcr : create_node s cid desc (some L) md now =
        (.ok ⟨cid, some L, desc, md, true, now, now⟩,
         ⟨setA (setA s.nodes cid ⟨cid, some L, desc, md, true, now, now⟩) L
            { nL with is_leaf := false, updated_at := now },
          modifyA (setA s.children cid []) L (fun l => l ++ [cid]), s.root_id⟩) := by
      simp [create_node, h1, h3, h2]
    have hknew := keysA_setA_new s.nodes cid
      (⟨cid, some L, desc, md, true, now, now⟩ : Node) hfresh0
    have hLmem1 : L ∈ keysA (setA s.nodes cid ⟨cid, some L, desc, md, true, now, now⟩) := by
      rw [hknew]
      exact List.mem_append_left _ hLmem
    have hkeys1 : keysA (setA (setA s.nodes cid ⟨cid, some L, desc, md, true, now, now⟩) L
        { nL with is_leaf := false, updated_at := now }) = keysA s.nodes ++ [cid] := by
      rw [keysA_setA_mem _ _ _ hLmem1, hknew]
    have hfreshC : ¬ cid ∈ keysA s.children := by rw [hke]; exact hfresh0
    have hkeysC1 : keysA (modifyA (setA s.children cid []) L (fun l => l ++ [cid])) =
        keysA s.children ++ [cid] := by
      rw [keysA_modifyA, keysA_setA_new _ _ _ hfreshC]
    have hnd1 : (keysA (setA (setA s.nodes cid ⟨cid, some L, desc, md, true, now, now⟩) L
        { nL with is_leaf := false, updated_at := now })).Nodup := by
      rw [hkeys1]
      exact nodup_append_singleton hnd hfresh0
    have hke1 : KeysEq ⟨setA (setA s.nodes cid ⟨cid, some L, desc, md, true, now, now⟩) L
        { nL with is_leaf := false, updated_at := now },
        modifyA (setA s.children cid []) L (fun l => l ++ [cid]), s.root_id⟩ := by
      unfold KeysEq
      simp only
      rw [hkeysC1, hkeys1, hke]
    have hL1 : lookupA (setA (setA s.nodes cid ⟨cid, some L, desc, md, true, now, now⟩) L
        { nL with is_leaf := false, updated_at := now }) L =
        some { nL with is_leaf := false, updated_at := now } :=
      lookupA_setA_self _ _ _
    have hlcs1 : lookupA (modifyA (setA s.children cid []) L (fun l => l ++ [cid])) L =
        some (lcs0 ++ [cid]) := by
      rw [lookupA_modifyA_self, lookupA_setA_ne _ _ _ _ hLcid, hlcs]
      rfl
    have hfresh1 : ∀ q ∈ cd,
        ¬ q.1 ∈ keysA (setA (setA s.nodes cid ⟨cid, some L, desc, md, true, now, now⟩) L
          { nL with is_leaf := false, updated_at := now }) := by
      intro q hq
      rw [hkeys1]
      simp only [List.mem_append, List.mem_singleton]
      rintro (hmem | hq1)
      · exact hfresh q (List.mem_cons_of_mem _ hq) hmem
      · exact hcid_not_map (hq1 ▸ List.mem_map_of_mem _ hq)
    obtain ⟨sf, hloop, hLf, hchLf, hchildf, hpresf, hprescf, hcountf, hrootf, hndf, hkef,
        hkeysf⟩ :=
      ih ⟨setA (setA s.nodes cid ⟨cid, some L, desc, md, true, now, now⟩) L
            { nL with is_leaf := false, updated_at := now },
          modifyA (setA s.children cid []) L (fun l => l ++ [cid]), s.root_id⟩
        { nL with is_leaf := false, updated_at := now } (lcs0 ++ [cid])
        hnd1 hke1 hL1 hlcs1 hmap_nodup hfresh1
    refine ⟨sf, ?_, ?_, ?_, ?_, ?_, ?_, ?_, ?_, hndf, hkef, ?_⟩
    · simp only [expand_loop, hcr]
      exact hloop
    · by_cases hcd : cd = [] <;> simp [hcd] at hLf ⊢ <;> exact hLf
    · simpa using hchLf
    · intro q hq
      rcases List.mem_cons.mp hq with h0 | h0
      · subst h0
        refine ⟨⟨cid, some L, desc, md, true, now, now⟩, ?_, rfl, rfl, ?_⟩
        · rw [hpresf cid hcidL hcid_not_map]
          simp only
          rw [lookupA_setA_ne _ _ _ _ hcidL, lookupA_setA_self]
        · rw [hprescf cid hcidL hcid_not_map]
          simp only
          rw [lookupA_modifyA_ne _ _ _ _ hcidL, lookupA_setA_self]
      · exact hchildf q h0
    · intro k hkL hk
      have hkc : ¬ k = cid := fun hh => hk (by simp [hh])
      have hkm : ¬ k ∈ cd.map (fun p => p.1) := fun hh => hk (by simp [hh])
      rw [hpresf k hkL hkm]
      simp only
      rw [lookupA_setA_ne _ _ _ _ hkL, lookupA_setA_ne _ _ _ _ hkc]
    · intro k hkL hk
      have hkc : ¬ k = cid := fun hh => hk (by simp [hh])
      have hkm : ¬ k ∈ cd.map (fun p => p.1) := fun hh => hk (by simp [hh])
      rw [hprescf k hkL hkm]
      simp only
      rw [lookupA_modifyA_ne _ _ _ _ hkL, lookupA_setA_ne _ _ _ _ hkc]
    · have hlen1 : (setA (setA s.nodes cid ⟨cid, some L, desc, md, true, now, now⟩) L
          { nL with is_leaf := false, updated_at := now }).length = s.nodes.length + 1 := by
        rw [length_setA_mem _ _ _ hLmem1, length_setA_new _ _ _ hfresh0]
      simp only [node_count] at hcountf ⊢
      rw [hlen1] at hcountf
      simp only [List.length_cons]
      omega
    · rw [hrootf]
    · rw [hkeysf]
      simp only
      rw [hkeys1]
      simp

/-- When every listed id resolves to a node carrying that id, the
`get_children` projection back to ids is the identity. -/
theorem filterMap_ids (s : TreeState) (l : List String)
    (h : ∀ c ∈ l, ∃ nc, lookupA s.nodes c = some nc ∧ nc.id = c) :
    (l.filterMap (fun c => lookupA s.nodes c)).map (fun m => m.id) = l := by
  induction l with
  | nil => rfl
  | cons c cs ih =>
    obtain ⟨nc, hc, hid⟩ := h c (by simp)
    simp only [List.filterMap_cons, hc, List.map_cons, hid]
    rw [ih (fun c' hc' => h c' (by simp [hc']))]

/-- C8.  On a well-formed tree, expanding a stored leaf `L` with any list of
pairwise-distinct fresh child ids and then collapsing `L` restores `L` to
`is_leaf = true`, removes every created child (each a leaf, so the whole
created subtree) from the store, and returns the node count to its
pre-expand value. -/
theorem c8_expand_collapse_roundtrip (s : TreeState) (L : String) (n n1 : Node)
    (cd : List (String × String × Metadata)) (s1 : TreeState) (now1 now2 : Nat)
    (h : WF s) (hL : lookupA s.nodes L = some n) (hleaf : n.is_leaf = true)
    (hnodup : (cd.map (fun p => p.1)).Nodup)
    (hfresh : ∀ p ∈ cd, ¬ p.1 ∈ keysA s.nodes)
    (hrun : expand s L cd now1 = (.ok n1, s1)) :
    (∃ n2, lookupA (collapse s1 L none now2).2.nodes L = some n2 ∧ n2.is_leaf = true) ∧
    (∀ p ∈ cd, lookupA (collapse s1 L none now2).2.nodes p.1 = none) ∧
    node_count (collapse s1 L none now2).2 = node_count s := by
  have hnd := wf_nodup_nodes h
  have hke : KeysEq s := wf_keys_eq h
  have hLne : L ≠ "" := wf_key_nonempty h hL
  have hLmem : L ∈ keysA s.nodes :=
    (lookupA_isSome_iff_mem_keysA _ _).mp (by simp [hL])
  have hLmemC : L ∈ keysA s.children := by rw [wf_keys_eq h]; exact hLmem
  have hchL0 : childList s L = [] := (wf_leaf_iff h hL).mp hleaf
  have hlcs : lookupA s.children L = some [] := by
    cases hx : lookupA s.children L with
    | none => exact absurd ((lookupA_isSome_iff_mem_keysA _ _).mpr hLmemC) (by simp [hx])
    | some l =>
      have hcl : childList s L = l := by simp [childList, hx]
      rw [hchL0] at hcl
      rw [← hcl]
  obtain ⟨sf, hloop, hLf, hchLf, hchildf, hpresf, hprescf, hcountf, hrootf, hndf, hkef,
      hkeysf⟩ :=
    expand_loop_effect L now1 cd s n [] hnd hke hL hlcs hnodup hfresh
  have hexp : expand s L cd now1 =
      (.ok (if cd = [] then n else { n with is_leaf := false, updated_at := now1 }), sf) := by
    simp only [expand, get_node, hL, hleaf, Bool.not_true, Bool.false_eq_true, if_false,
      hloop, hLf]
  rw [hrun] at hexp
  injection hexp with hfst hsnd
  subst hsnd
  by_cases hcd : cd = []
  · subst hcd
    rw [if_pos rfl] at hLf
    have hcol : collapse s1 L none now2 =
        (.error (.invalidOperation ("Node " ++ L ++ " is already a leaf, cannot collapse")),
          s1) := by
      simp only [collapse, get_node, hLf, hleaf, if_true]
    rw [hcol]
    exact ⟨⟨n, hLf, hleaf⟩, by simp, by simpa using hcountf⟩
  · rw [if_neg hcd] at hLf
    have hchS1 : childList s1 L = cd.map (fun p => p.1) := by
      simp [childList, hchLf]
    have hids : ∀ c ∈ cd.map (fun p => p.1),
        ∃ nc, lookupA s1.nodes c = some nc ∧ nc.id = c := by
      intro c hc
      obtain ⟨q, hq, hq1⟩ := List.mem_map.mp hc
      obtain ⟨np, hnp, hid, _, _⟩ := hchildf q hq
      exact ⟨np, hq1 ▸ hnp, hq1 ▸ hid⟩
    have hmap : ((childList s1 L).filterMap (fun c => lookupA s1.nodes c)).map
        (fun m => m.id) = cd.map (fun p => p.1) := by
      rw [hchS1]
      exact filterMap_ids s1 _ hids
    have hch : ∀ c ∈ cd.map (fun p => p.1),
        ∃ nc, lookupA s1.nodes c = some nc ∧ nc.parent_id = some L ∧
          childList s1 c = [] ∧ ¬ s1.root_id = some c ∧ ¬ c = L := by
      intro c hc
      obtain ⟨q, hq, hq1⟩ := List.mem_map.mp hc
      obtain ⟨np, hnp, _, hpid, hcl⟩ := hchildf q hq
      have hfr : ¬ c ∈ keysA s.nodes := hq1 ▸ hfresh q hq
      refine ⟨np, hq1 ▸ hnp, hpid, ?_, ?_, fun hh => hfr (hh ▸ hLmem)⟩
      · simp [childList, hq1 ▸ hcl]
      · rw [hrootf]
        cases hr : s.root_id with
        | none => simp
        | some r =>
          have hrk : r ∈ keysA s.nodes := by
            rw [← hasKey_eq_mem_keysA]
            exact wf_root_hasKey h hr
          intro hh
          injection hh with hh
          exact hfr (hh ▸ hrk)
    obtain ⟨tf, hloop2, hLtf, hrm, hpres2, hcount2, hroot2, hndtf, hketf⟩ :=
      collapse_loop_effect L now2 (cd.map (fun p => p.1)) s1
        { n with is_leaf := false, updated_at := now1 }
        hndf hkef hLf (by simpa using hchLf) hnodup hLne hch
    have hmapne : ¬ cd.map (fun p => p.1) = [] := by
      simpa using hcd
    rw [if_neg hmapne] at hLtf
    have hcol : collapse s1 L none now2 =
        (.ok { n with is_leaf := true, updated_at := now2 }, tf) := by
      simp only [collapse, get_node, hLf, get_children, Bool.false_eq_true, if_false,
        hmap, hloop2, hLtf]
    rw [hcol]
    refine ⟨⟨{ n with is_leaf := true, updated_at := now2 }, hLtf, rfl⟩, ?_, ?_⟩
    · intro q hq
      exact hrm q.1 (List.mem_map_of_mem _ hq)
    · have hlencd : (cd.map (fun p => p.1)).length = cd.length := List.length_map _ _
      show node_count tf = node_count s
      omega

theorem c8_witness :
    expand st_a "a" [("b", "B", [])] 1 =
      (.ok ⟨"a", none, "first", [], false, 0, 1⟩,
        ⟨[("a", ⟨"a", none, "first", [], false, 0, 1⟩),
          ("b", ⟨"b", some "a", "B", [], true, 1, 1⟩)],
         [("a", ["b"]), ("b", [])], some "a"⟩) ∧
    ((∃ n2, lookupA (collapse ⟨[("a", ⟨"a", none, "first", [], false, 0, 1⟩),
          ("b", ⟨"b", some "a", "B", [], true, 1, 1⟩)],
         [("a", ["b"]), ("b", [])], some "a"⟩ "a" none 2).2.nodes "a" = some n2 ∧
        n2.is_leaf = true) ∧
     (∀ p ∈ [("b", "B", ([] : Metadata))],
        lookupA (collapse ⟨[("a", ⟨"a", none, "first", [], false, 0, 1⟩),
          ("b", ⟨"b", some "a", "B", [], true, 1, 1⟩)],
         [("a", ["b"]), ("b", [])], some "a"⟩ "a" none 2).2.nodes p.1 = none) ∧
     node_count (collapse ⟨[("a", ⟨"a", none, "first", [], false, 0, 1⟩),
          ("b", ⟨"b", some "a", "B", [], true, 1, 1⟩)],
         [("a", ["b"]), ("b", [])], some "a"⟩ "a" none 2).2 = node_count st_a) :=
  ⟨by decide,
   c8_expand_collapse_roundtrip st_a "a" ⟨"a", none, "first", [], true, 0, 0⟩
     ⟨"a", none, "first", [], false, 0, 1⟩ [("b", "B", [])]
     ⟨[("a", ⟨"a", none, "first", [], false, 0, 1⟩),
       ("b", ⟨"b", some "a", "B", [], true, 1, 1⟩)],
      [("a", ["b"]), ("b", [])], some "a"⟩ 1 2
     (by decide : wfB st_a = true) (by decide) rfl (by decide) (by decide) (by decide)⟩

end TreeApi
